import Mathlib

/-!
Verification development for the docbot-fe client core: the document index
tracker (`merge`, `latestIndexedAt`), the answer parser (`parseAnswer`),
answer extraction (`extractAnswer`), the chat send flow (`handleSend`, split
into its synchronous start phase and its resolution phase), the dashboard
indexing lifecycle flags, and the persistence effects.

JavaScript strings are modelled as Lean `String`/`List Char`; JS string
comparison (code-unit lexicographic, which is what `<`, `>` and
`localeCompare` amount to on ISO-8601 timestamps) is modelled by an
executable lexicographic comparison `lexLt` bridged to Mathlib's linear
order on `List Char`.  `Array.prototype.sort`, which ECMAScript requires to
be stable, is modelled by a stable insertion sort.  Asynchronous functions
are modelled by splitting them at their `await` points and passing the
outcome of the awaited call explicitly.
-/

/-! ### Lexicographic string comparison (JS `<` / `localeCompare` on code units) -/

/-- Executable lexicographic comparison of character lists, as JS compares
strings by code units. -/
def lexLt : List Char → List Char → Bool
  | [], [] => false
  | [], _ :: _ => true
  | _ :: _, [] => false
  | a :: as, b :: bs => if a < b then true else if b < a then false else lexLt as bs

theorem lexLt_iff : ∀ (a b : List Char), lexLt a b = true ↔ a < b
  | [], [] => by
    rw [show lexLt [] [] = false from rfl]
    exact ⟨fun h => Bool.noConfusion h, fun h => absurd h (lt_irrefl ([] : List Char))⟩
  | [], b :: bs => by
    rw [show lexLt [] (b :: bs) = true from rfl]
    exact ⟨fun _ => List.nil_lt_cons _ _, fun _ => rfl⟩
  | a :: as, [] => by
    rw [show lexLt (a :: as) [] = false from rfl]
    exact ⟨fun h => Bool.noConfusion h, fun h => absurd h (List.Lex.not_nil_right _ _)⟩
  | a :: as, b :: bs => by
    rw [show lexLt (a :: as) (b :: bs)
        = if a < b then true else if b < a then false else lexLt as bs from rfl]
    split
    · rename_i h
      exact ⟨fun _ => List.Lex.rel h, fun _ => rfl⟩
    · split
      · rename_i h1 h2
        refine ⟨fun h => Bool.noConfusion h, fun hlt => ?_⟩
        cases hlt with
        | rel h => exact absurd h h1
        | cons h => exact absurd h2 (lt_irrefl _)
      · rename_i h1 h2
        have hab : a = b := le_antisymm (not_lt.mp h2) (not_lt.mp h1)
        subst hab
        rw [lexLt_iff as bs]
        constructor
        · exact fun h => List.Lex.cons h
        · intro hlt
          cases hlt with
          | rel h => exact absurd h (lt_irrefl _)
          | cons h => exact h

/-- JS `a < b` on strings. -/
def strLt (a b : String) : Bool := lexLt a.data b.data

/-- JS `a <= b` on strings; `b.localeCompare a <= 0` in the sort comparator. -/
def strLe (a b : String) : Bool := !(strLt b a)

theorem strLt_iff (a b : String) : strLt a b = true ↔ a < b := by
  rw [String.lt_iff_toList_lt]
  exact lexLt_iff a.data b.data

theorem strLe_iff (a b : String) : strLe a b = true ↔ a ≤ b := by
  have h1 : strLe a b = true ↔ ¬ strLt b a = true := by
    simp [strLe]
  rw [h1, strLt_iff, not_lt]

theorem strLe_empty (s : String) : strLe "" s = true := by
  have h : strLt s "" = false := by
    show lexLt s.data [] = false
    cases s.data <;> rfl
  simp [strLe, h]

theorem strLe_total (a b : String) : strLe a b = true ∨ strLe b a = true := by
  rcases le_total a b with h | h
  · exact Or.inl ((strLe_iff a b).mpr h)
  · exact Or.inr ((strLe_iff b a).mpr h)

theorem strLe_trans {a b c : String} (h1 : strLe a b = true) (h2 : strLe b c = true) :
    strLe a c = true :=
  (strLe_iff a c).mpr (le_trans ((strLe_iff a b).mp h1) ((strLe_iff b c).mp h2))

theorem strLe_antisymm {a b : String} (h1 : strLe a b = true) (h2 : strLe b a = true) :
    a = b :=
  le_antisymm ((strLe_iff a b).mp h1) ((strLe_iff b a).mp h2)

/-! ### JS whitespace and `String.prototype.trim` -/

/-- The characters removed by JS `String.prototype.trim` (ECMAScript WhiteSpace
and LineTerminator code points). -/
def jsWhitespaceChars : List Char :=
  [' ', '\t', '\n', '\r', '\x0b', '\x0c', ' ', ' ', ' ', ' ',
   ' ', ' ', ' ', ' ', ' ', ' ', ' ', ' ',
   ' ', ' ', ' ', ' ', ' ', '　', '﻿']

def isJsSpace (c : Char) : Bool := c ∈ jsWhitespaceChars

/-- JS `String.prototype.trim` on the character list: drop whitespace from both
ends. -/
def jsTrim (l : List Char) : List Char :=
  ((l.dropWhile isJsSpace).reverse.dropWhile isJsSpace).reverse

/-- JS `s.trim()`. -/
def jsTrimS (s : String) : String := ⟨jsTrim s.data⟩

theorem isJsSpace_bracketL : isJsSpace '[' = false := by decide

theorem isJsSpace_bracketR : isJsSpace ']' = false := by decide

theorem isJsSpace_newline : isJsSpace '\n' = true := by decide

/-! ### Answer parser (`parseAnswer` in ChatArea)

The regex `\[[^\]]+\]` with the global flag matches, scanning left to right,
every span consisting of `[`, one or more non-`]` characters, and `]`.  The
scan is modelled by the state machine `runTok`: outside a bracket each
character is its own non-match token, `[` opens a pending span; inside a
pending span `]` closes it (as a match if the span has at least one inner
character, mirroring the `+`; `[]` matches nothing and both characters are
re-emitted as plain text, as the regex engine advances past the failed `[`);
at end of input an unclosed pending span is plain text. -/

/-- One token of the scan: `(true, span)` for a regex match `[...]`,
`(false, chars)` for characters left in place. -/
def runTok : List Char → Option (List Char) → List (Bool × List Char)
  | [], none => []
  | [], some pend => pend.map (fun c => (false, [c]))
  | c :: rest, none =>
      if c = '[' then runTok rest (some ['['])
      else (false, [c]) :: runTok rest none
  | c :: rest, some pend =>
      if c = ']' then
        if 2 ≤ pend.length then (true, pend ++ [']']) :: runTok rest none
        else (false, ['[']) :: (false, [']']) :: runTok rest none
      else runTok rest (some (pend ++ [c]))

/-- All tokens of `answer.matchAll(/\[[^\]]+\]/g)` interleaved with the
unmatched text. -/
def bracketTokens (l : List Char) : List (Bool × List Char) := runTok l none

/-- The list of regex matches, in scan order (`Array.from(answer.matchAll(...))`). -/
def matchesOf (l : List Char) : List (List Char) :=
  ((bracketTokens l).filter (fun t => t.1)).map (fun t => t.2)

/-- The input with every match removed (`answer.replace(/\[[^\]]+\]/g, "")`). -/
def removedOf (l : List Char) : List Char :=
  (((bracketTokens l).filter (fun t => !t.1)).map (fun t => t.2)).flatten

/-- The reference list: each match's `match[0].slice(1, -1).trim()`, skipping
blanks and exact-text duplicates (`if (ref && !references.includes(ref))`). -/
def collectRefs (ms : List (List Char)) : List String :=
  ms.foldl
    (fun acc m =>
      let ref : String := ⟨jsTrim ((m.drop 1).dropLast)⟩
      if ref ≠ "" ∧ ref ∉ acc then acc ++ [ref] else acc)
    []

/-- State machine for `.replace(/\n{3,}/g, "\n\n")`: `n` counts the newlines
of the run being read; a maximal run of three or more newlines is emitted as
exactly two. -/
def collapseRun : List Char → Nat → List Char
  | [], n => List.replicate (min n 2) '\n'
  | c :: rest, n =>
      if c = '\n' then collapseRun rest (n + 1)
      else List.replicate (min n 2) '\n' ++ c :: collapseRun rest 0

def collapseNewlines (l : List Char) : List Char := collapseRun l 0

structure ParsedAnswer where
  content : String
  references : List String
deriving DecidableEq

/-- The answer parser of ChatArea: collects bracketed citation spans as
references (deduplicated, first occurrence order), removes them from the
displayed content, collapses runs of three or more newlines to two, trims,
and falls back to the trimmed original when nothing is left. -/
def parseAnswer (answer : String) : ParsedAnswer :=
  let l := answer.data
  let ms := matchesOf l
  let references := collectRefs ms
  let content0 : List Char :=
    if ms.length ≠ 0 then jsTrim (collapseNewlines (removedOf l)) else jsTrim l
  { content := ⟨if 0 < content0.length then content0 else jsTrim l⟩
    references := references }

/-! ### Answer extraction (`extractAnswer` in ChatArea) -/

/-- The `data` field of a query response: either a JSON string or a
structured (non-string, non-null) JSON value, which the code serializes with
`JSON.stringify(data, null, 2)`; the structured case carries that
serialization. -/
inductive JsData where
  | str : String → JsData
  | obj : String → JsData
deriving DecidableEq

/-- The loosely-typed query response body: optional `answer`, `response`,
`result` string fields and an optional `data` field. -/
structure QueryResponse where
  answer : Option String
  response : Option String
  result : Option String
  data : Option JsData
deriving DecidableEq

/-- Fallback answer used when no response field yields content. -/
def fallbackAnswer : String := "Không tìm thấy câu trả lời phù hợp cho câu hỏi này."

/-- Helper for the repeated `typeof f === "string" && f.trim()` test: the
trimmed value when the field is a string with non-blank content. -/
def nonBlank : Option String → Option String
  | some s => if jsTrimS s = "" then none else some (jsTrimS s)
  | none => none

/-- `extractAnswer`: first non-blank of `answer`, `response`, `result`, then a
non-blank string `data`, then a structured `data` serialized, else the fixed
fallback string. -/
def extractAnswer (d : QueryResponse) : String :=
  match nonBlank d.answer with
  | some a => a
  | none =>
    match nonBlank d.response with
    | some a => a
    | none =>
      match nonBlank d.result with
      | some a => a
      | none =>
        match d.data with
        | some (JsData.str s) => if jsTrimS s = "" then fallbackAnswer else jsTrimS s
        | some (JsData.obj j) => j
        | none => fallbackAnswer

/-! ### Chat session (`handleSend` in ChatArea)

`handleSend` is asynchronous; it is modelled in two phases around its single
`await queryDocuments(question)` point.  `handleSendStart` is the synchronous
prefix: validation, and on acceptance appending the user message and the
loading assistant placeholder, clearing the input and raising the in-flight
flag; its second component is the question passed to the network call, or
`none` when no call is made.  `handleSendResolve` applies the continuation
for a given outcome of the awaited call (the `try`/`catch`/`finally`). -/

inductive MessageRole where
  | user
  | assistant
deriving DecidableEq

inductive MessageStatus where
  | idle
  | loading
  | complete
  | error
deriving DecidableEq

structure MessageItem where
  id : String
  role : MessageRole
  content : String
  status : MessageStatus
  createdAt : String
  references : Option (List String)
deriving DecidableEq

/-- The per-conversation chat state: the input box text, the message list and
the in-flight flag. -/
structure ChatState where
  message : String
  messages : List MessageItem
  isSending : Bool
deriving DecidableEq

def handleSendStart (isReady : Bool) (st : ChatState) (payload : Option String)
    (createdAt userId assistantId : String) : ChatState × Option String :=
  let question := jsTrimS (payload.getD st.message)
  if question = "" ∨ isReady = false ∨ st.isSending = true then (st, none)
  else
    let userMessage : MessageItem :=
      { id := userId, role := MessageRole.user, content := question,
        status := MessageStatus.complete, createdAt := createdAt, references := none }
    let pendingAssistant : MessageItem :=
      { id := assistantId, role := MessageRole.assistant, content := "",
        status := MessageStatus.loading, createdAt := createdAt, references := some [] }
    ({ message := "", messages := st.messages ++ [userMessage, pendingAssistant],
       isSending := true },
     some question)

/-- Outcome of the awaited `queryDocuments` call: a parsed response body, or a
raised exception carrying `error.message` when the exception was an `Error`
and nothing otherwise. -/
inductive QueryOutcome where
  | success : QueryResponse → QueryOutcome
  | failure : Option String → QueryOutcome
deriving DecidableEq

/-- Fallback error description for a non-`Error` exception. -/
def genericQueryError : String := "Không thể lấy câu trả lời từ hệ thống."

/-- The message of the error thrown by `queryDocuments` on a non-2xx response. -/
def queryFailureMessage (status : Nat) : String :=
  "Query request failed with status " ++ toString status

def handleSendResolve (st : ChatState) (assistantId : String) (outcome : QueryOutcome) :
    ChatState :=
  match outcome with
  | QueryOutcome.success resp =>
      let answer := extractAnswer resp
      let parsed := parseAnswer answer
      { st with
        messages := st.messages.map (fun item =>
          if item.id = assistantId then
            { item with
                content := parsed.content,
                status := MessageStatus.complete,
                references := some parsed.references }
          else item),
        isSending := false }
  | QueryOutcome.failure err =>
      let description := err.getD genericQueryError
      { st with
        messages := st.messages.map (fun item =>
          if item.id = assistantId then
            { item with
                content := description,
                status := MessageStatus.error,
                references := some [] }
          else item),
        isSending := false }

/-! ### Document index tracker (Dashboard `handleIndexDocuments`) -/

structure IndexedDocument where
  id : String
  name : String
  size : Nat
  indexedAt : String
deriving DecidableEq

/-- One step of the `indexedDocuments.forEach` loop: `findIndex` on the name,
in-place assignment at the found index, or `push` at the end. -/
def replaceOrAppend : List IndexedDocument → IndexedDocument → List IndexedDocument
  | [], doc => [doc]
  | item :: rest, doc =>
      if item.name = doc.name then doc :: rest
      else item :: replaceOrAppend rest doc

/-- The sort comparator `(a, b) => (b.indexedAt ?? "").localeCompare(a.indexedAt ?? "")`
as a precedence test: `a` may precede `b` iff the comparator is `<= 0` on them,
i.e. descending by `indexedAt`. -/
def docLe (a b : IndexedDocument) : Bool := strLe b.indexedAt a.indexedAt

/-- Stable insertion: `x` is placed after every earlier element that may
precede it quoad `le`, so elements the comparator ties keep their order. -/
def insertStable {α : Type} (le : α → α → Bool) (x : α) : List α → List α
  | [] => [x]
  | y :: ys => if le y x then y :: insertStable le x ys else x :: y :: ys

/-- Stable sort (ECMAScript requires `Array.prototype.sort` to be stable, and
a stable sort's output is determined by the comparator and the input order). -/
def stableSort {α : Type} (le : α → α → Bool) (l : List α) : List α :=
  l.foldl (fun acc x => insertStable le x acc) []

/-- The `setDocuments` updater: replace same-named documents in place, append
the rest, then re-sort descending by `indexedAt`. -/
def merge (prev newDocs : List IndexedDocument) : List IndexedDocument :=
  stableSort docLe (newDocs.foldl replaceOrAppend prev)

/-- One step of the `documents.reduce` computing the latest timestamp:
`!latest || (doc.indexedAt && doc.indexedAt > latest) ? doc.indexedAt : latest`
(JS string truthiness is non-emptiness). -/
def latestStep (latest : String) (doc : IndexedDocument) : String :=
  if latest = "" ∨ (doc.indexedAt ≠ "" ∧ strLt latest doc.indexedAt = true) then
    doc.indexedAt
  else latest

/-- The `lastIndexedAt` effect: absent for an empty list, otherwise the
reduction over all documents seeded with `documents[0]?.indexedAt ?? ""`. -/
def latestIndexedAt : List IndexedDocument → Option String
  | [] => none
  | d :: rest => some ((d :: rest).foldl latestStep d.indexedAt)

/-! ### Dashboard indexing lifecycle (flags of `handleIndexDocuments`) -/

structure DashboardState where
  isIndexing : Bool
  isReady : Bool
  documents : List IndexedDocument
  lastIndexedAt : Option String
  lastMessage : Option String
deriving DecidableEq

/-- The initial `useState` values of the Dashboard. -/
def initialDashboard : DashboardState :=
  { isIndexing := false, isReady := true, documents := [], lastIndexedAt := none,
    lastMessage := none }

/-- Entry of `handleIndexDocuments`: `setIsIndexing(true); setIsReady(false)`,
the state observable while the index request is in flight. -/
def indexStart (st : DashboardState) : DashboardState :=
  { st with isIndexing := true, isReady := false }

/-- Outcome of the awaited `sendIndexRequest`: the freshly built
`IndexedDocument` records and timestamp with the response message on success,
or a thrown failure. -/
inductive IndexOutcome where
  | success : List IndexedDocument → String → Option String → IndexOutcome
  | failure : IndexOutcome

/-- Success continuation plus the `finally` block: merge the new documents,
update `lastIndexedAt` and `lastMessage`, restore `isReady`, clear `isIndexing`. -/
def indexFinishSuccess (st : DashboardState) (newDocs : List IndexedDocument)
    (indexedAt : String) (message : Option String) : DashboardState :=
  { st with
      documents := merge st.documents newDocs,
      lastIndexedAt := some indexedAt,
      lastMessage := message,
      isReady := true,
      isIndexing := false }

/-- Failure path: the `catch` re-throws, the `finally` block still runs
`setIsIndexing(false); setIsReady(true)`. -/
def indexFinishFailure (st : DashboardState) : DashboardState :=
  { st with isIndexing := false, isReady := true }

/-- A whole `handleIndexDocuments` call from state `st` with a given outcome. -/
def runIndex (st : DashboardState) (o : IndexOutcome) : DashboardState :=
  match o with
  | IndexOutcome.success newDocs indexedAt message =>
      indexFinishSuccess (indexStart st) newDocs indexedAt message
  | IndexOutcome.failure => indexFinishFailure (indexStart st)

/-- States observable in the indexing lifecycle: the initial state, a state
with an indexing operation in flight, and the state after a completed
operation. -/
inductive DashReachable : DashboardState → Prop where
  | init : DashReachable initialDashboard
  | inflight {st : DashboardState} : DashReachable st → DashReachable (indexStart st)
  | complete {st : DashboardState} (o : IndexOutcome) :
      DashReachable st → DashReachable (runIndex st o)

/-! ### Persistence effects (Dashboard `useEffect` hooks) -/

def DOCUMENT_STORAGE_KEY : String := "indexed-documents"

def CONVERSATION_STORAGE_KEY : String := "conversations"

structure Conversation where
  id : String
  title : String
  model : String
  timestamp : String
deriving DecidableEq

/-- Key-value durable storage (`window.localStorage`). -/
def Store : Type := String → Option String

def Store.write (s : Store) (k v : String) : Store :=
  fun k2 => if k2 = k then some v else s k2

def jsonStr (s : String) : String := "\x22" ++ s ++ "\x22"

/-- `JSON.stringify` of one IndexedDocument record. -/
def serializeDocument (d : IndexedDocument) : String :=
  "\x7b\x22id\x22:" ++ jsonStr d.id ++ ",\x22name\x22:" ++ jsonStr d.name ++
    ",\x22size\x22:" ++ toString d.size ++ ",\x22indexedAt\x22:" ++ jsonStr d.indexedAt ++
    "\x7d"

/-- `JSON.stringify(documents)`. -/
def serializeDocuments (docs : List IndexedDocument) : String :=
  "[" ++ String.intercalate "," (docs.map serializeDocument) ++ "]"

/-- `JSON.stringify` of one Conversation record. -/
def serializeConversation (c : Conversation) : String :=
  "\x7b\x22id\x22:" ++ jsonStr c.id ++ ",\x22title\x22:" ++ jsonStr c.title ++
    ",\x22model\x22:" ++ jsonStr c.model ++ ",\x22timestamp\x22:" ++ jsonStr c.timestamp ++
    "\x7d"

/-- `JSON.stringify(conversations)`. -/
def serializeConversations (cs : List Conversation) : String :=
  "[" ++ String.intercalate "," (cs.map serializeConversation) ++ "]"

/-- The `useEffect` on `[documents]`: writes the serialized list
unconditionally. -/
def documentsPersistEffect (store : Store) (documents : List IndexedDocument) : Store :=
  Store.write store DOCUMENT_STORAGE_KEY (serializeDocuments documents)

/-- The `useEffect` on `[conversations]`: returns without writing when the
list is empty. -/
def conversationsPersistEffect (store : Store) (conversations : List Conversation) :
    Store :=
  if conversations.length = 0 then store
  else Store.write store CONVERSATION_STORAGE_KEY (serializeConversations conversations)

/-! ### Basic facts about `jsTrim` -/

theorem jsTrim_eq_nil_iff (l : List Char) :
    jsTrim l = [] ↔ ∀ c ∈ l, isJsSpace c = true := by
  unfold jsTrim
  rw [List.reverse_eq_nil_iff, List.dropWhile_eq_nil_iff]
  constructor
  · intro h c hc
    rw [← List.takeWhile_append_dropWhile isJsSpace l] at hc
    rcases List.mem_append.mp hc with h1 | h1
    · exact List.mem_takeWhile_imp h1
    · exact h c (List.mem_reverse.mpr h1)
  · intro h c hc
    have h1 : c ∈ l.dropWhile isJsSpace := List.mem_reverse.mp hc
    exact h c ((List.dropWhile_sublist isJsSpace).mem h1)

theorem jsTrimS_eq_empty_iff (s : String) :
    jsTrimS s = "" ↔ ∀ c ∈ s.data, isJsSpace c = true := by
  unfold jsTrimS
  rw [show ("" : String) = ⟨[]⟩ from rfl]
  constructor
  · intro h
    exact (jsTrim_eq_nil_iff s.data).mp (congrArg String.data h)
  · intro h
    exact congrArg String.mk ((jsTrim_eq_nil_iff s.data).mpr h)

/-! ### Claim C6: dashboard indexing lifecycle flags -/

/-- C6: in every state reachable by the indexing lifecycle, `isIndexing` and
`isReady` are never both true; while an indexing operation is in progress
`isReady` is false; after a completed `indexDocuments` call (success or
failure) `isIndexing` is false and `isReady` is true. -/
theorem dashboard_flags_invariant :
    (∀ st : DashboardState, DashReachable st →
      ¬(st.isIndexing = true ∧ st.isReady = true)) ∧
    (∀ st : DashboardState, (indexStart st).isReady = false) ∧
    (∀ (st : DashboardState) (o : IndexOutcome),
      (runIndex st o).isIndexing = false ∧ (runIndex st o).isReady = true) := by
  refine ⟨?_, fun st => rfl, ?_⟩
  · intro st h
    induction h with
    | init => simp [initialDashboard]
    | inflight _ _ => simp [indexStart]
    | complete o _ _ =>
        cases o <;>
          simp [runIndex, indexFinishSuccess, indexFinishFailure, indexStart]
  · intro st o
    cases o <;> exact ⟨rfl, rfl⟩

theorem dashboard_flags_invariant_witness :
    DashReachable (indexStart initialDashboard) ∧
      ¬((indexStart initialDashboard).isIndexing = true ∧
          (indexStart initialDashboard).isReady = true) :=
  ⟨DashReachable.inflight DashReachable.init,
    dashboard_flags_invariant.1 (indexStart initialDashboard)
      (DashReachable.inflight DashReachable.init)⟩

/-! ### Claim C4: send rejection is a strict no-op -/

/-- C4: if the question is empty or whitespace-only, or the session is not
ready, or a send is already in flight, `handleSend` returns without changing
the state (no messages appended) and without issuing a network call. -/
theorem handleSend_rejects (isReady : Bool) (st : ChatState) (payload : Option String)
    (createdAt userId assistantId : String)
    (h : (∀ c ∈ (payload.getD st.message).data, isJsSpace c = true) ∨
      isReady = false ∨ st.isSending = true) :
    handleSendStart isReady st payload createdAt userId assistantId = (st, none) := by
  unfold handleSendStart
  rcases h with h | h | h
  · rw [if_pos (Or.inl ((jsTrimS_eq_empty_iff _).mpr h))]
  · rw [if_pos (Or.inr (Or.inl h))]
  · rw [if_pos (Or.inr (Or.inr h))]

theorem handleSend_rejects_witness :
    ((∀ c ∈ ((none : Option String).getD (ChatState.mk "  " [] false).message).data,
        isJsSpace c = true) ∨ false = false ∨ (ChatState.mk "  " [] false).isSending = true) ∧
      handleSendStart true (ChatState.mk "  " [] false) none "t" "u" "a"
        = (ChatState.mk "  " [] false, none) :=
  ⟨Or.inl (by decide),
    handleSend_rejects true (ChatState.mk "  " [] false) none "t" "u" "a"
      (Or.inl (by decide))⟩

/-! ### Claim C10: persistence of documents vs conversations -/

/-- C10: the documents effect writes the full serialized list to the document
storage key unconditionally, including for the empty list, so an empty list
overwrites whatever was stored; the conversations effect is a no-op on an
empty list. -/
theorem documents_persist_unconditionally :
    (∀ (store : Store) (docs : List IndexedDocument),
      documentsPersistEffect store docs DOCUMENT_STORAGE_KEY
        = some (serializeDocuments docs)) ∧
    (∀ store : Store,
      documentsPersistEffect store [] DOCUMENT_STORAGE_KEY
        = some (serializeDocuments [])) ∧
    (∀ store : Store, conversationsPersistEffect store [] = store) := by
  refine ⟨?_, ?_, ?_⟩
  · intro store docs
    simp [documentsPersistEffect, Store.write]
  · intro store
    simp [documentsPersistEffect, Store.write]
  · intro store
    rfl

/-! ### Session update helper -/

theorem map_keep_of_ne (aid : String) (g : MessageItem → MessageItem) :
    ∀ (l : List MessageItem), (∀ m ∈ l, m.id ≠ aid) →
      l.map (fun item => if item.id = aid then g item else item) = l := by
  intro l h
  induction l with
  | nil => rfl
  | cons x xs ih =>
      simp only [List.map_cons]
      rw [if_neg (h x (List.mem_cons_self x xs))]
      rw [ih (fun m hm => h m (List.mem_cons_of_mem x hm))]

/-! ### Claim C5: failure path of an accepted send -/

/-- C5: for an accepted send whose query call fails, the loading assistant
placeholder (appended by the start phase) transitions to `error` with the
failure's message or the generic fallback, which is non-empty; all other
messages are unchanged; and the in-flight flag is false after resolution on
both the failure and the success path. -/
theorem handleSend_failure_path
    (st0 : ChatState) (payload : Option String) (createdAt userId assistantId : String)
    (err : Option String)
    (hq : jsTrimS (payload.getD st0.message) ≠ "")
    (hs : st0.isSending = false)
    (hfresh : ∀ m ∈ st0.messages, m.id ≠ assistantId)
    (huid : userId ≠ assistantId)
    (herr : err ≠ some "") :
    (handleSendStart true st0 payload createdAt userId assistantId).1.messages
        = st0.messages ++
          [⟨userId, MessageRole.user, jsTrimS (payload.getD st0.message),
              MessageStatus.complete, createdAt, none⟩,
            ⟨assistantId, MessageRole.assistant, "", MessageStatus.loading, createdAt,
              some []⟩] ∧
    handleSendResolve (handleSendStart true st0 payload createdAt userId assistantId).1
        assistantId (QueryOutcome.failure err)
      = { message := "",
          messages := st0.messages ++
            [⟨userId, MessageRole.user, jsTrimS (payload.getD st0.message),
                MessageStatus.complete, createdAt, none⟩,
              ⟨assistantId, MessageRole.assistant, err.getD genericQueryError,
                MessageStatus.error, createdAt, some []⟩],
          isSending := false } ∧
    err.getD genericQueryError ≠ "" ∧
    (∀ resp : QueryResponse,
      (handleSendResolve (handleSendStart true st0 payload createdAt userId assistantId).1
          assistantId (QueryOutcome.success resp)).isSending = false) := by
  have hcond : ¬(jsTrimS (payload.getD st0.message) = "" ∨ true = false ∨
      st0.isSending = true) := by
    rintro (h | h | h)
    · exact hq h
    · exact Bool.noConfusion h
    · rw [hs] at h
      exact Bool.noConfusion h
  have hst1 : handleSendStart true st0 payload createdAt userId assistantId
      = ({ message := "",
           messages := st0.messages ++
             [⟨userId, MessageRole.user, jsTrimS (payload.getD st0.message),
                 MessageStatus.complete, createdAt, none⟩,
               ⟨assistantId, MessageRole.assistant, "", MessageStatus.loading, createdAt,
                 some []⟩],
           isSending := true },
         some (jsTrimS (payload.getD st0.message))) := by
    unfold handleSendStart
    rw [if_neg hcond]
  refine ⟨by rw [hst1], ?_, ?_, ?_⟩
  · rw [hst1]
    unfold handleSendResolve
    simp only [List.map_append, List.map_cons, List.map_nil]
    rw [map_keep_of_ne assistantId _ st0.messages hfresh]
    simp [huid]
  · cases err with
    | none => exact fun h => by exact absurd h (by decide)
    | some m =>
        intro h
        exact herr (by rw [Option.getD_some] at h; rw [h])
  · intro resp
    rfl

theorem handleSend_failure_path_witness :
    jsTrimS ((some "What?").getD (ChatState.mk "" [] false).message) ≠ "" ∧
    (handleSendResolve
        (handleSendStart true (ChatState.mk "" [] false) (some "What?") "t" "u" "a").1
        "a" (QueryOutcome.failure (some "boom"))).isSending = false :=
  ⟨by decide, by
    have h := handleSend_failure_path (ChatState.mk "" [] false) (some "What?") "t" "u" "a"
      (some "boom") (by decide) rfl (by simp) (by decide) (by decide)
    rw [h.2.1]⟩

/-! ### Claim C3: answer extraction priority and the success transition -/

/-- C3: `extractAnswer` returns the first non-blank value among `answer`,
`response`, `result`, then a non-blank string `data`; a structured `data` is
serialized for display; when no field yields content the fixed fallback
string is substituted.  For every accepted send, on success with response
`{answer: "Paris"}` the loading placeholder transitions to `complete` with
content `"Paris"` and references `[]`. -/
theorem extractAnswer_priority_and_success :
    (∀ (d : QueryResponse) (a : String), nonBlank d.answer = some a →
      extractAnswer d = a) ∧
    (∀ (d : QueryResponse) (a : String), nonBlank d.answer = none →
      nonBlank d.response = some a → extractAnswer d = a) ∧
    (∀ (d : QueryResponse) (a : String), nonBlank d.answer = none →
      nonBlank d.response = none → nonBlank d.result = some a → extractAnswer d = a) ∧
    (∀ (d : QueryResponse) (s : String), nonBlank d.answer = none →
      nonBlank d.response = none → nonBlank d.result = none →
      d.data = some (JsData.str s) → jsTrimS s ≠ "" → extractAnswer d = jsTrimS s) ∧
    (∀ (d : QueryResponse) (j : String), nonBlank d.answer = none →
      nonBlank d.response = none → nonBlank d.result = none →
      d.data = some (JsData.obj j) → extractAnswer d = j) ∧
    (∀ d : QueryResponse, nonBlank d.answer = none → nonBlank d.response = none →
      nonBlank d.result = none →
      (d.data = none ∨ ∃ s, d.data = some (JsData.str s) ∧ jsTrimS s = "") →
      extractAnswer d = fallbackAnswer) ∧
    (∀ (st0 : ChatState) (payload : Option String)
      (createdAt userId assistantId : String),
      jsTrimS (payload.getD st0.message) ≠ "" → st0.isSending = false →
      (∀ m ∈ st0.messages, m.id ≠ assistantId) → userId ≠ assistantId →
      handleSendResolve (handleSendStart true st0 payload createdAt userId assistantId).1
          assistantId (QueryOutcome.success ⟨some "Paris", none, none, none⟩)
        = { message := "",
            messages := st0.messages ++
              [⟨userId, MessageRole.user, jsTrimS (payload.getD st0.message),
                  MessageStatus.complete, createdAt, none⟩,
                ⟨assistantId, MessageRole.assistant, "Paris", MessageStatus.complete,
                  createdAt, some []⟩],
            isSending := false }) := by
  refine ⟨?_, ?_, ?_, ?_, ?_, ?_, ?_⟩
  · intro d a h
    unfold extractAnswer
    rw [h]
  · intro d a h1 h2
    unfold extractAnswer
    rw [h1, h2]
  · intro d a h1 h2 h3
    unfold extractAnswer
    rw [h1, h2, h3]
  · intro d s h1 h2 h3 hd hne
    unfold extractAnswer
    rw [h1, h2, h3, hd]
    simp only [if_neg hne]
  · intro d j h1 h2 h3 hd
    unfold extractAnswer
    rw [h1, h2, h3, hd]
  · intro d h1 h2 h3 hd
    unfold extractAnswer
    rw [h1, h2, h3]
    rcases hd with hd | ⟨s, hd, hblank⟩
    · rw [hd]
    · rw [hd]
      simp only [if_pos hblank]
  · intro st0 payload createdAt userId assistantId hq hs hfresh huid
    have hcond : ¬(jsTrimS (payload.getD st0.message) = "" ∨ true = false ∨
        st0.isSending = true) := by
      rintro (h | h | h)
      · exact hq h
      · exact Bool.noConfusion h
      · rw [hs] at h
        exact Bool.noConfusion h
    have hst1 : handleSendStart true st0 payload createdAt userId assistantId
        = ({ message := "",
             messages := st0.messages ++
               [⟨userId, MessageRole.user, jsTrimS (payload.getD st0.message),
                   MessageStatus.complete, createdAt, none⟩,
                 ⟨assistantId, MessageRole.assistant, "", MessageStatus.loading,
                   createdAt, some []⟩],
             isSending := true },
           some (jsTrimS (payload.getD st0.message))) := by
      unfold handleSendStart
      rw [if_neg hcond]
    have hextract : extractAnswer ⟨some "Paris", none, none, none⟩ = "Paris" := by decide
    have hparse : parseAnswer "Paris" = ⟨"Paris", []⟩ := by decide
    rw [hst1]
    simp only [handleSendResolve]
    rw [hextract, hparse]
    simp only [List.map_append, List.map_cons, List.map_nil]
    rw [map_keep_of_ne assistantId _ st0.messages hfresh]
    simp [huid]

theorem extractAnswer_priority_and_success_witness :
    nonBlank (QueryResponse.mk (some "Paris") none none none).answer = some "Paris" ∧
    extractAnswer (QueryResponse.mk (some "Paris") none none none) = "Paris" :=
  ⟨by decide,
    extractAnswer_priority_and_success.1 (QueryResponse.mk (some "Paris") none none none)
      "Paris" (by decide)⟩

/-! ### Claim C9: `latestIndexedAt` computes the maximum timestamp -/

theorem latestStep_eq_max (x : String) (d : IndexedDocument) :
    latestStep x d = max x d.indexedAt := by
  unfold latestStep
  split
  · rename_i h
    rcases h with h | ⟨hne, hlt⟩
    · subst h
      exact (max_eq_right ((strLe_iff _ _).mp (strLe_empty d.indexedAt))).symm
    · exact (max_eq_right (le_of_lt ((strLt_iff _ _).mp hlt))).symm
  · rename_i h
    push_neg at h
    obtain ⟨hne, h2⟩ := h
    by_cases hia : d.indexedAt = ""
    · rw [hia]
      exact (max_eq_left ((strLe_iff _ _).mp (strLe_empty x))).symm
    · have hnlt : ¬ strLt x d.indexedAt = true := by
        intro hc
        exact absurd (h2 hia) (by simp [hc])
      rw [strLt_iff] at hnlt
      exact (max_eq_left (not_lt.mp hnlt)).symm

theorem foldl_max_mem : ∀ (l : List String) (a : String),
    l.foldl max a = a ∨ l.foldl max a ∈ l := by
  intro l
  induction l with
  | nil => exact fun a => Or.inl rfl
  | cons b bs ih =>
      intro a
      rcases ih (max a b) with h | h
      · rcases max_choice a b with h2 | h2
        · exact Or.inl (by rw [List.foldl_cons, h, h2])
        · exact Or.inr (by rw [List.foldl_cons, h, h2]; exact List.mem_cons_self b bs)
      · exact Or.inr (List.mem_cons_of_mem b h)

theorem le_foldl_max : ∀ (l : List String) (a : String),
    a ≤ l.foldl max a ∧ ∀ x ∈ l, x ≤ l.foldl max a := by
  intro l
  induction l with
  | nil => exact fun a => ⟨le_refl a, fun x hx => absurd hx (List.not_mem_nil x)⟩
  | cons b bs ih =>
      intro a
      obtain ⟨h1, h2⟩ := ih (max a b)
      refine ⟨le_trans (le_max_left a b) h1, ?_⟩
      intro x hx
      rcases List.mem_cons.mp hx with hx | hx
      · subst hx
        exact le_trans (le_max_right a x) h1
      · exact h2 x hx

theorem foldl_latestStep_eq : ∀ (l : List IndexedDocument) (a : String),
    l.foldl latestStep a = (l.map (fun d => d.indexedAt)).foldl max a := by
  intro l
  induction l with
  | nil => exact fun a => rfl
  | cons x xs ih =>
      intro a
      rw [List.foldl_cons, List.map_cons, List.foldl_cons, latestStep_eq_max, ih]

/-- C9: `latestIndexedAt` of an empty document list is absent; of a non-empty
list it is the maximum `indexedAt` value under string comparison (an element
of the list that bounds every `indexedAt` from above). -/
theorem latestIndexedAt_correct :
    latestIndexedAt [] = none ∧
    ∀ docs : List IndexedDocument, docs ≠ [] →
      ∃ m, latestIndexedAt docs = some m ∧
        m ∈ docs.map (fun d => d.indexedAt) ∧
        ∀ s ∈ docs.map (fun d => d.indexedAt), strLe s m = true := by
  refine ⟨rfl, ?_⟩
  intro docs hne
  cases docs with
  | nil => exact absurd rfl hne
  | cons d rest =>
      refine ⟨(d :: rest).foldl latestStep d.indexedAt, rfl, ?_, ?_⟩
      · rw [foldl_latestStep_eq]
        rcases foldl_max_mem ((d :: rest).map (fun d => d.indexedAt)) d.indexedAt with h | h
        · rw [h, List.map_cons]
          exact List.mem_cons_self _ _
        · exact h
      · intro s hs
        rw [foldl_latestStep_eq]
        exact (strLe_iff _ _).mpr
          ((le_foldl_max ((d :: rest).map (fun d => d.indexedAt)) d.indexedAt).2 s hs)

theorem latestIndexedAt_correct_witness :
    ([IndexedDocument.mk "i" "n" 0 "2024"] ≠ []) ∧
    ∃ m, latestIndexedAt [IndexedDocument.mk "i" "n" 0 "2024"] = some m ∧
      m ∈ [IndexedDocument.mk "i" "n" 0 "2024"].map (fun d => d.indexedAt) ∧
      ∀ s ∈ [IndexedDocument.mk "i" "n" 0 "2024"].map (fun d => d.indexedAt),
        strLe s m = true :=
  ⟨by simp,
    latestIndexedAt_correct.2 [IndexedDocument.mk "i" "n" 0 "2024"] (by simp)⟩

/-! ### Stable sort lemmas -/

theorem mem_insertStable {α : Type} (le : α → α → Bool) (x z : α) :
    ∀ l : List α, z ∈ insertStable le x l ↔ z = x ∨ z ∈ l := by
  intro l
  induction l with
  | nil => simp [insertStable]
  | cons y ys ih =>
      by_cases h : le y x = true
      · simp only [insertStable, if_pos h, List.mem_cons, ih]
        tauto
      · simp [insertStable, if_neg h]

theorem insertStable_perm {α : Type} (le : α → α → Bool) (x : α) :
    ∀ l : List α, (insertStable le x l).Perm (x :: l) := by
  intro l
  induction l with
  | nil => exact List.Perm.refl _
  | cons y ys ih =>
      by_cases h : le y x = true
      · simp only [insertStable, if_pos h]
        exact (ih.cons y).trans (List.Perm.swap x y ys)
      · simp only [insertStable, if_neg h]
        exact List.Perm.refl _

theorem pairwise_insertStable {α : Type} (le : α → α → Bool)
    (htotal : ∀ a b, le a b = true ∨ le b a = true)
    (htrans : ∀ a b c, le a b = true → le b c = true → le a c = true)
    (x : α) : ∀ l : List α, l.Pairwise (fun a b => le a b = true) →
      (insertStable le x l).Pairwise (fun a b => le a b = true) := by
  intro l
  induction l with
  | nil => exact fun _ => List.pairwise_singleton _ x
  | cons y ys ih =>
      intro hp
      rw [List.pairwise_cons] at hp
      obtain ⟨hy, hys⟩ := hp
      by_cases h : le y x = true
      · simp only [insertStable, if_pos h]
        rw [List.pairwise_cons]
        refine ⟨?_, ih hys⟩
        intro z hz
        rcases (mem_insertStable le x z ys).mp hz with hz | hz
        · subst hz
          exact h
        · exact hy z hz
      · simp only [insertStable, if_neg h]
        have hxy : le x y = true := by
          rcases htotal x y with h2 | h2
          · exact h2
          · exact absurd h2 h
        rw [List.pairwise_cons]
        constructor
        · intro z hz
          rcases List.mem_cons.mp hz with hz | hz
          · subst hz
            exact hxy
          · exact htrans x y z hxy (hy z hz)
        · exact List.pairwise_cons.mpr ⟨hy, hys⟩

theorem stableSort_perm {α : Type} (le : α → α → Bool) (l : List α) :
    (stableSort le l).Perm l := by
  have key : ∀ (l acc : List α),
      (l.foldl (fun acc x => insertStable le x acc) acc).Perm (acc ++ l) := by
    intro l
    induction l with
    | nil => intro acc; simp
    | cons x xs ih =>
        intro acc
        refine (ih (insertStable le x acc)).trans ?_
        refine ((insertStable_perm le x acc).append_right xs).trans ?_
        exact List.perm_middle.symm
  simpa using key l []

theorem stableSort_pairwise {α : Type} (le : α → α → Bool)
    (htotal : ∀ a b, le a b = true ∨ le b a = true)
    (htrans : ∀ a b c, le a b = true → le b c = true → le a c = true)
    (l : List α) : (stableSort le l).Pairwise (fun a b => le a b = true) := by
  have key : ∀ (l acc : List α), acc.Pairwise (fun a b => le a b = true) →
      (l.foldl (fun acc x => insertStable le x acc) acc).Pairwise
        (fun a b => le a b = true) := by
    intro l
    induction l with
    | nil => exact fun acc h => h
    | cons x xs ih =>
        intro acc h
        exact ih (insertStable le x acc) (pairwise_insertStable le htotal htrans x acc h)
  exact key l [] (List.Pairwise.nil)

theorem docLe_total (a b : IndexedDocument) : docLe a b = true ∨ docLe b a = true :=
  strLe_total b.indexedAt a.indexedAt

theorem docLe_trans (a b c : IndexedDocument) (h1 : docLe a b = true)
    (h2 : docLe b c = true) : docLe a c = true :=
  strLe_trans h2 h1

/-! ### Names of the document list under `replaceOrAppend` -/

theorem docNames_replaceOrAppend (d : IndexedDocument) :
    ∀ l : List IndexedDocument,
      (d.name ∈ l.map (fun x => x.name) ∧
        (replaceOrAppend l d).map (fun x => x.name) = l.map (fun x => x.name)) ∨
      (d.name ∉ l.map (fun x => x.name) ∧
        (replaceOrAppend l d).map (fun x => x.name)
          = l.map (fun x => x.name) ++ [d.name]) := by
  intro l
  induction l with
  | nil => exact Or.inr ⟨by simp, rfl⟩
  | cons x xs ih =>
      by_cases h : x.name = d.name
      · refine Or.inl ⟨by simp [h], ?_⟩
        simp [replaceOrAppend, h]
      · rcases ih with ⟨hm, he⟩ | ⟨hm, he⟩
        · refine Or.inl ⟨by simp [hm], ?_⟩
          simp only [replaceOrAppend, if_neg h, List.map_cons, he]
        · refine Or.inr ⟨?_, ?_⟩
          · simp only [List.map_cons, List.mem_cons]
            rintro (hc | hc)
            · exact h hc.symm
            · exact hm hc
          · simp only [replaceOrAppend, if_neg h, List.map_cons, he]
            rfl

theorem nodup_docNames_replaceOrAppend {l : List IndexedDocument} (d : IndexedDocument)
    (h : (l.map (fun x => x.name)).Nodup) :
    ((replaceOrAppend l d).map (fun x => x.name)).Nodup := by
  rcases docNames_replaceOrAppend d l with ⟨_, he⟩ | ⟨hm, he⟩
  · rw [he]
    exact h
  · rw [he, ← List.concat_eq_append]
    exact List.Nodup.concat hm h

theorem nodup_docNames_fold (newDocs : List IndexedDocument) :
    ∀ prev : List IndexedDocument, ((prev.map (fun x => x.name)).Nodup) →
      ((newDocs.foldl replaceOrAppend prev).map (fun x => x.name)).Nodup := by
  induction newDocs with
  | nil => exact fun prev h => h
  | cons d ds ih =>
      intro prev h
      exact ih (replaceOrAppend prev d) (nodup_docNames_replaceOrAppend d h)

theorem nodup_docNames_merge {prev : List IndexedDocument} (newDocs : List IndexedDocument)
    (h : (prev.map (fun x => x.name)).Nodup) :
    ((merge prev newDocs).map (fun x => x.name)).Nodup := by
  unfold merge
  have hperm := (stableSort_perm docLe (newDocs.foldl replaceOrAppend prev)).map
    (fun x => x.name)
  exact (hperm.nodup_iff).mpr (nodup_docNames_fold newDocs prev h)

theorem merge_sorted (prev newDocs : List IndexedDocument) :
    (merge prev newDocs).Pairwise (fun a b => docLe a b = true) :=
  stableSort_pairwise docLe docLe_total docLe_trans _

/-! ### Claim C1: invariants of arbitrary merge sequences -/

/-- C1: any sequence of `merge` operations starting from the empty document
list yields a list with at most one entry per distinct name, sorted
descending by `indexedAt` (so entries with empty `indexedAt` sort last:
whenever an entry with empty `indexedAt` precedes another, the latter is
empty as well). -/
theorem merge_fold_invariant (batches : List (List IndexedDocument)) :
    ((batches.foldl merge []).map (fun d => d.name)).Nodup ∧
    (batches.foldl merge []).Pairwise (fun a b => docLe a b = true) ∧
    (batches.foldl merge []).Pairwise
      (fun a b => a.indexedAt = "" → b.indexedAt = "") := by
  have hnodup : ∀ (bs : List (List IndexedDocument)) (prev : List IndexedDocument),
      (prev.map (fun x => x.name)).Nodup →
      ((bs.foldl merge prev).map (fun x => x.name)).Nodup := by
    intro bs
    induction bs with
    | nil => exact fun prev h => h
    | cons b bs ih =>
        intro prev h
        exact ih (merge prev b) (nodup_docNames_merge b h)
  have hshape : ∀ (bs : List (List IndexedDocument)) (prev : List IndexedDocument),
      bs.foldl merge prev = prev ∨ ∃ p n, bs.foldl merge prev = merge p n := by
    intro bs
    induction bs with
    | nil => exact fun prev => Or.inl rfl
    | cons b bs ih =>
        intro prev
        rcases ih (merge prev b) with h | ⟨p, n, h⟩
        · exact Or.inr ⟨prev, b, h⟩
        · exact Or.inr ⟨p, n, h⟩
  have hsorted : (batches.foldl merge []).Pairwise (fun a b => docLe a b = true) := by
    rcases hshape batches [] with h | ⟨p, n, h⟩
    · rw [h]
      exact List.Pairwise.nil
    · rw [h]
      exact merge_sorted p n
  refine ⟨hnodup batches [] (by simp), hsorted, ?_⟩
  refine hsorted.imp ?_
  intro a b hle hae
  have h1 : strLe b.indexedAt "" = true := by
    rw [← hae]
    exact hle
  exact strLe_antisymm h1 (strLe_empty b.indexedAt)

/-! ### Lookup by name, for the merge idempotence analysis -/

/-- First document with the given name (`combined.findIndex` finds the first
index; this is the corresponding element). -/
def getByName (l : List IndexedDocument) (n : String) : Option IndexedDocument :=
  l.find? (fun d => d.name == n)

/-- The last document with the given name in a batch; after the `forEach`
loop this is the occupant of that name's slot. -/
def lastWithName : List IndexedDocument → String → Option IndexedDocument
  | [], _ => none
  | d :: ds, n =>
      match lastWithName ds n with
      | some e => some e
      | none => if d.name = n then some d else none

theorem getByName_cons (x : IndexedDocument) (xs : List IndexedDocument) (n : String) :
    getByName (x :: xs) n = if x.name = n then some x else getByName xs n := by
  unfold getByName
  rw [List.find?_cons]
  by_cases h : x.name = n
  · have hb : (x.name == n) = true := by simp [h]
    rw [hb, if_pos h]
  · have hb : (x.name == n) = false := by simp [h]
    rw [hb, if_neg h]

theorem lastWithName_cons (d : IndexedDocument) (ds : List IndexedDocument) (n : String) :
    lastWithName (d :: ds) n
      = match lastWithName ds n with
        | some e => some e
        | none => if d.name = n then some d else none := rfl

theorem replaceOrAppend_cons (x : IndexedDocument) (xs : List IndexedDocument)
    (d : IndexedDocument) :
    replaceOrAppend (x :: xs) d
      = if x.name = d.name then d :: xs else x :: replaceOrAppend xs d := rfl

theorem getByName_replaceOrAppend (d : IndexedDocument) (n : String) :
    ∀ l : List IndexedDocument,
      getByName (replaceOrAppend l d) n
        = if d.name = n then some d else getByName l n := by
  intro l
  induction l with
  | nil =>
      show getByName [d] n = _
      rw [getByName_cons]
  | cons x xs ih =>
      rw [replaceOrAppend_cons]
      by_cases hx : x.name = d.name
      · rw [if_pos hx, getByName_cons, getByName_cons]
        by_cases hdn : d.name = n
        · rw [if_pos hdn, if_pos hdn]
        · have hxn : ¬ x.name = n := by
            rw [hx]
            exact hdn
          rw [if_neg hdn, if_neg hdn, if_neg hxn]
      · rw [if_neg hx, getByName_cons, ih, getByName_cons]
        by_cases hxn : x.name = n
        · have hdn : ¬ d.name = n := fun h => hx (hxn.trans h.symm)
          rw [if_pos hxn, if_neg hdn, if_pos hxn]
        · rw [if_neg hxn, if_neg hxn]

theorem getByName_fold (n : String) :
    ∀ (newDocs l : List IndexedDocument),
      getByName (newDocs.foldl replaceOrAppend l) n
        = match lastWithName newDocs n with
          | some e => some e
          | none => getByName l n := by
  intro newDocs
  induction newDocs with
  | nil => exact fun l => rfl
  | cons d ds ih =>
      intro l
      rw [List.foldl_cons, ih (replaceOrAppend l d), getByName_replaceOrAppend,
        lastWithName_cons]
      cases hl : lastWithName ds n with
      | some e => rfl
      | none =>
          by_cases hdn : d.name = n
          · simp [hdn]
          · simp [hdn]

theorem getByName_eq_none_iff (l : List IndexedDocument) (n : String) :
    getByName l n = none ↔ ∀ d ∈ l, d.name ≠ n := by
  unfold getByName
  rw [List.find?_eq_none]
  constructor
  · intro h d hd
    have := h d hd
    simpa using this
  · intro h d hd
    simp [h d hd]

theorem getByName_eq_some_iff :
    ∀ (l : List IndexedDocument), (l.map (fun x => x.name)).Nodup →
      ∀ (n : String) (d : IndexedDocument),
        (getByName l n = some d ↔ d ∈ l ∧ d.name = n) := by
  intro l
  induction l with
  | nil =>
      intro _ n d
      constructor
      · intro h
        exact absurd h (by simp [getByName])
      · rintro ⟨hmem, _⟩
        exact absurd hmem (List.not_mem_nil d)
  | cons x xs ih =>
      intro hnd n d
      rw [List.map_cons, List.nodup_cons] at hnd
      obtain ⟨hx_notin, hnd_xs⟩ := hnd
      rw [getByName_cons]
      by_cases hx : x.name = n
      · rw [if_pos hx]
        constructor
        · intro h
          have h2 := Option.some.inj h
          subst h2
          exact ⟨List.mem_cons_self _ _, hx⟩
        · rintro ⟨hmem, hname⟩
          rcases List.mem_cons.mp hmem with h | h
          · rw [h]
          · exact absurd (List.mem_map.mpr ⟨d, h, hname.trans hx.symm⟩) hx_notin
      · rw [if_neg hx, ih hnd_xs n d]
        constructor
        · rintro ⟨hmem, hname⟩
          exact ⟨List.mem_cons_of_mem x hmem, hname⟩
        · rintro ⟨hmem, hname⟩
          rcases List.mem_cons.mp hmem with h | h
          · subst h
            exact absurd hname hx
          · exact ⟨h, hname⟩

theorem getByName_perm {l l' : List IndexedDocument} (hp : l.Perm l')
    (hnd : (l.map (fun x => x.name)).Nodup) (n : String) :
    getByName l n = getByName l' n := by
  have hnd' : (l'.map (fun x => x.name)).Nodup := ((hp.map _).nodup_iff).mp hnd
  cases hgl : getByName l n with
  | some d =>
      obtain ⟨hm, hn⟩ := (getByName_eq_some_iff l hnd n d).mp hgl
      exact ((getByName_eq_some_iff l' hnd' n d).mpr ⟨hp.mem_iff.mp hm, hn⟩).symm
  | none =>
      have h1 := (getByName_eq_none_iff l n).mp hgl
      exact ((getByName_eq_none_iff l' n).mpr
        (fun d hd => h1 d (hp.mem_iff.mpr hd))).symm

theorem eq_of_names_and_getByName :
    ∀ (l l' : List IndexedDocument),
      l.map (fun x => x.name) = l'.map (fun x => x.name) →
      (l.map (fun x => x.name)).Nodup →
      (∀ n, getByName l n = getByName l' n) → l = l' := by
  intro l
  induction l with
  | nil =>
      intro l' hn _ _
      exact (List.map_eq_nil_iff.mp hn.symm).symm
  | cons x xs ih =>
      intro l' hn hnd hget
      cases l' with
      | nil => exact absurd hn (by simp)
      | cons y ys =>
          rw [List.map_cons, List.map_cons] at hn
          have h1 : x.name = y.name := (List.cons.injEq _ _ _ _ ▸ hn).1
          have h2 : xs.map (fun x => x.name) = ys.map (fun x => x.name) :=
            (List.cons.injEq _ _ _ _ ▸ hn).2
          rw [List.map_cons, List.nodup_cons] at hnd
          obtain ⟨hxnotin, hnds⟩ := hnd
          have hxy : x = y := by
            have h3 := hget x.name
            rw [getByName_cons, getByName_cons, if_pos rfl, if_pos h1.symm] at h3
            exact Option.some.inj h3
          subst hxy
          have htail : ∀ n, getByName xs n = getByName ys n := by
            intro n
            by_cases hxn2 : x.name = n
            · subst hxn2
              have hlx : getByName xs x.name = none :=
                (getByName_eq_none_iff xs x.name).mpr
                  (fun d hd hc => hxnotin (List.mem_map.mpr ⟨d, hd, hc⟩))
              have hly : getByName ys x.name = none :=
                (getByName_eq_none_iff ys x.name).mpr
                  (fun d hd hc => hxnotin (h2 ▸ List.mem_map.mpr ⟨d, hd, hc⟩))
              rw [hlx, hly]
            · have h3 := hget n
              rw [getByName_cons, getByName_cons, if_neg hxn2, if_neg hxn2] at h3
              exact h3
          rw [ih ys h2 hnds htail]

theorem mem_docNames_replaceOrAppend {n : String} {l : List IndexedDocument}
    (d : IndexedDocument) (h : n ∈ l.map (fun x => x.name)) :
    n ∈ (replaceOrAppend l d).map (fun x => x.name) := by
  rcases docNames_replaceOrAppend d l with ⟨_, he⟩ | ⟨_, he⟩
  · rw [he]
    exact h
  · rw [he]
    exact List.mem_append_left _ h

theorem mem_docNames_fold_of_mem (newDocs : List IndexedDocument) :
    ∀ (l : List IndexedDocument) (n : String), n ∈ l.map (fun x => x.name) →
      n ∈ (newDocs.foldl replaceOrAppend l).map (fun x => x.name) := by
  induction newDocs with
  | nil => exact fun l n h => h
  | cons d ds ih =>
      intro l n h
      exact ih (replaceOrAppend l d) n (mem_docNames_replaceOrAppend d h)

theorem name_mem_docNames_fold (newDocs : List IndexedDocument) :
    ∀ (l : List IndexedDocument), ∀ d ∈ newDocs,
      d.name ∈ (newDocs.foldl replaceOrAppend l).map (fun x => x.name) := by
  induction newDocs with
  | nil =>
      intro l d hd
      exact absurd hd (List.not_mem_nil d)
  | cons x xs ih =>
      intro l d hd
      rcases List.mem_cons.mp hd with h | h
      · subst h
        rw [List.foldl_cons]
        apply mem_docNames_fold_of_mem xs (replaceOrAppend l d) d.name
        rcases docNames_replaceOrAppend d l with ⟨hm, he⟩ | ⟨_, he⟩
        · rw [he]
          exact hm
        · rw [he]
          exact List.mem_append_right _ (List.mem_singleton.mpr rfl)
      · rw [List.foldl_cons]
        exact ih (replaceOrAppend l x) d h

theorem docNames_fold_eq (newDocs : List IndexedDocument) :
    ∀ l : List IndexedDocument,
      (∀ d ∈ newDocs, d.name ∈ l.map (fun x => x.name)) →
      (newDocs.foldl replaceOrAppend l).map (fun x => x.name)
        = l.map (fun x => x.name) := by
  induction newDocs with
  | nil => exact fun l _ => rfl
  | cons d ds ih =>
      intro l h
      have hd := h d (List.mem_cons_self d ds)
      have heq : (replaceOrAppend l d).map (fun x => x.name) = l.map (fun x => x.name) := by
        rcases docNames_replaceOrAppend d l with ⟨_, he⟩ | ⟨hm, _⟩
        · exact he
        · exact absurd hd hm
      rw [List.foldl_cons, ih (replaceOrAppend l d) ?_, heq]
      intro d2 hd2
      rw [heq]
      exact h d2 (List.mem_cons_of_mem d hd2)

/-! ### A stable sort fixes sorted lists -/

theorem insertStable_append_of_le {α : Type} (le : α → α → Bool) (x : α) :
    ∀ acc : List α, (∀ y ∈ acc, le y x = true) → insertStable le x acc = acc ++ [x] := by
  intro acc
  induction acc with
  | nil => exact fun _ => rfl
  | cons y ys ih =>
      intro h
      simp only [insertStable, if_pos (h y (List.mem_cons_self y ys))]
      rw [ih (fun z hz => h z (List.mem_cons_of_mem y hz))]
      rfl

theorem foldl_insertStable_of_pairwise {α : Type} (le : α → α → Bool) :
    ∀ (l acc : List α), (acc ++ l).Pairwise (fun a b => le a b = true) →
      l.foldl (fun acc x => insertStable le x acc) acc = acc ++ l := by
  intro l
  induction l with
  | nil =>
      intro acc _
      simp
  | cons x xs ih =>
      intro acc h
      have hx : ∀ y ∈ acc, le y x = true := by
        rw [List.pairwise_append] at h
        intro y hy
        exact h.2.2 y hy x (List.mem_cons_self x xs)
      rw [List.foldl_cons, insertStable_append_of_le le x acc hx]
      have h2 : ((acc ++ [x]) ++ xs).Pairwise (fun a b => le a b = true) := by
        rw [List.append_assoc]
        exact h
      rw [ih (acc ++ [x]) h2, List.append_assoc]
      rfl

theorem stableSort_of_sorted {α : Type} (le : α → α → Bool) (l : List α)
    (h : l.Pairwise (fun a b => le a b = true)) : stableSort le l = l := by
  have h2 := foldl_insertStable_of_pairwise le l [] (by simpa using h)
  simpa [stableSort] using h2

/-! ### Claim C8: merge idempotence -/

/-- C8 counterexample: when the existing list already violates name
uniqueness (two entries named "a"), re-merging the same batch changes the
list, so idempotence fails for arbitrary existing lists. -/
theorem merge_not_idempotent :
    merge
        (merge [IndexedDocument.mk "id1" "a" 0 "1", IndexedDocument.mk "id2" "a" 0 "9"]
          [IndexedDocument.mk "id3" "a" 0 "5"])
        [IndexedDocument.mk "id3" "a" 0 "5"]
      ≠ merge [IndexedDocument.mk "id1" "a" 0 "1", IndexedDocument.mk "id2" "a" 0 "9"]
          [IndexedDocument.mk "id3" "a" 0 "5"] := by decide

/-- C8 (amended): for every existing document list whose names are distinct
(the invariant every list produced by the tracker satisfies), merging the
same batch a second time into the merged result yields the same list. -/
theorem merge_idempotent_of_nodup (prev newDocs : List IndexedDocument)
    (h : (prev.map (fun d => d.name)).Nodup) :
    merge (merge prev newDocs) newDocs = merge prev newDocs := by
  have hperm : (merge prev newDocs).Perm (newDocs.foldl replaceOrAppend prev) :=
    stableSort_perm docLe _
  have hndF : ((newDocs.foldl replaceOrAppend prev).map (fun x => x.name)).Nodup :=
    nodup_docNames_fold newDocs prev h
  have hndM : ((merge prev newDocs).map (fun x => x.name)).Nodup :=
    ((hperm.map _).nodup_iff).mpr hndF
  have hmemM : ∀ d ∈ newDocs, d.name ∈ (merge prev newDocs).map (fun x => x.name) := by
    intro d hd
    exact ((hperm.map (fun x => x.name)).mem_iff).mpr
      (name_mem_docNames_fold newDocs prev d hd)
  have habsorb : newDocs.foldl replaceOrAppend (merge prev newDocs) = merge prev newDocs := by
    apply eq_of_names_and_getByName
    · exact docNames_fold_eq newDocs (merge prev newDocs) hmemM
    · rw [docNames_fold_eq newDocs (merge prev newDocs) hmemM]
      exact hndM
    · intro n
      rw [getByName_fold n newDocs (merge prev newDocs)]
      cases hl : lastWithName newDocs n with
      | none => rfl
      | some e =>
          have hgF : getByName (newDocs.foldl replaceOrAppend prev) n = some e := by
            rw [getByName_fold n newDocs prev, hl]
          have hgM : getByName (merge prev newDocs) n
              = getByName (newDocs.foldl replaceOrAppend prev) n :=
            getByName_perm hperm hndM n
          rw [hgM, hgF]
  show stableSort docLe (newDocs.foldl replaceOrAppend (merge prev newDocs))
      = merge prev newDocs
  rw [habsorb]
  exact stableSort_of_sorted docLe (merge prev newDocs) (merge_sorted prev newDocs)

theorem merge_idempotent_witness :
    (([IndexedDocument.mk "x" "a" 0 "1"].map (fun d => d.name)).Nodup) ∧
      merge (merge [IndexedDocument.mk "x" "a" 0 "1"] [IndexedDocument.mk "y" "b" 0 "2"])
          [IndexedDocument.mk "y" "b" 0 "2"]
        = merge [IndexedDocument.mk "x" "a" 0 "1"] [IndexedDocument.mk "y" "b" 0 "2"] :=
  ⟨by decide, merge_idempotent_of_nodup _ _ (by decide)⟩

/-! ### Claim C2: the answer parser on the specified inputs -/

/-- C2: on the documented input the parser returns the deduplicated
references in first-occurrence order and the content with all bracketed
spans removed, newline runs collapsed and the result trimmed; and on every
input without a bracket match, the content is the trimmed original and the
reference list is empty. -/
theorem parseAnswer_spec_inputs :
    parseAnswer "The rule is X [Doc A p.1] and Y [Doc A p.1] [Doc B p.2]"
        = ⟨"The rule is X  and Y", ["Doc A p.1", "Doc B p.2"]⟩ ∧
    ∀ s : String, matchesOf s.data = [] →
      parseAnswer s = ⟨⟨jsTrim s.data⟩, []⟩ := by
  refine ⟨by decide, ?_⟩
  intro s h
  simp only [parseAnswer]
  rw [h]
  simp [collectRefs]

theorem parseAnswer_spec_inputs_witness :
    matchesOf ("hello" : String).data = [] ∧
      parseAnswer "hello" = ⟨⟨jsTrim ("hello" : String).data⟩, []⟩ :=
  ⟨by decide, parseAnswer_spec_inputs.2 "hello" (by decide)⟩

/-! ### Bracket patterns

`hasPattern l` decides whether the regex `\[[^\]]+\]` has a match in `l`: some
position holds `[` whose following text contains a `]` that is not immediately
adjacent.  `closes u` says a `[` placed just before `u` completes a match. -/

def closes (u : List Char) : Bool :=
  if ']' ∈ u ∧ u.head? ≠ some ']' then true else false

def hasPattern : List Char → Bool
  | [] => false
  | c :: rest => ((c == '[') && closes rest) || hasPattern rest

theorem closes_iff (u : List Char) :
    closes u = true ↔ (']' ∈ u ∧ u.head? ≠ some ']') := by
  unfold closes
  split
  · rename_i h
    exact ⟨fun _ => h, fun _ => rfl⟩
  · rename_i h
    exact ⟨fun hc => Bool.noConfusion hc, fun hc => absurd hc h⟩

theorem closes_cons_bracketR (u : List Char) : closes (']' :: u) = false := by
  unfold closes
  rw [if_neg]
  rintro ⟨_, h⟩
  exact h rfl

theorem hasPattern_cons (c : Char) (rest : List Char) :
    hasPattern (c :: rest) = (((c == '[') && closes rest) || hasPattern rest) := rfl

theorem hasPattern_cons_ne {c : Char} (h : c ≠ '[') (rest : List Char) :
    hasPattern (c :: rest) = hasPattern rest := by
  rw [hasPattern_cons]
  have hb : (c == '[') = false := by simp [h]
  rw [hb]
  simp

theorem hasPattern_cons_bracketL (rest : List Char) :
    hasPattern ('[' :: rest) = (closes rest || hasPattern rest) := by
  rw [hasPattern_cons]
  simp

theorem hasPattern_cons_of {u : List Char} (c : Char) (h : hasPattern u = true) :
    hasPattern (c :: u) = true := by
  rw [hasPattern_cons, h]
  simp

theorem hasPattern_append_left {u : List Char} (p : List Char) (h : hasPattern u = true) :
    hasPattern (p ++ u) = true := by
  induction p with
  | nil => exact h
  | cons c cs ih => exact hasPattern_cons_of c ih

theorem hasPattern_append_right {u : List Char} (v : List Char)
    (h : hasPattern u = true) : hasPattern (u ++ v) = true := by
  induction u with
  | nil => exact absurd h (by simp [hasPattern])
  | cons c u2 ih =>
      rw [hasPattern_cons] at h
      rcases Bool.or_eq_true_iff.mp h with h2 | h2
      · have hc : (c == '[') = true := (Bool.and_eq_true_iff.mp h2).1
        have hcl : closes u2 = true := (Bool.and_eq_true_iff.mp h2).2
        obtain ⟨hmem, hhead⟩ := (closes_iff u2).mp hcl
        show hasPattern (c :: (u2 ++ v)) = true
        rw [hasPattern_cons, Bool.or_eq_true_iff]
        left
        rw [Bool.and_eq_true_iff]
        refine ⟨hc, (closes_iff _).mpr ⟨List.mem_append_left v hmem, ?_⟩⟩
        cases u2 with
        | nil => exact absurd hmem (List.not_mem_nil ']')
        | cons d u3 => simpa using hhead
      · show hasPattern (c :: (u2 ++ v)) = true
        rw [hasPattern_cons, Bool.or_eq_true_iff]
        exact Or.inr (ih h2)

theorem hasPattern_eq_false_of_no_bracketR {u : List Char} (h : ']' ∉ u) :
    hasPattern u = false := by
  induction u with
  | nil => rfl
  | cons c rest ih =>
      have h2 : ']' ∉ rest := fun hc => h (List.mem_cons_of_mem c hc)
      rw [hasPattern_cons, ih h2]
      have hcl : closes rest = false := by
        cases hcl2 : closes rest
        · rfl
        · obtain ⟨hmem, _⟩ := (closes_iff rest).mp hcl2
          exact absurd hmem h2
      rw [hcl]
      simp

theorem hasPattern_eq_false_of_no_bracketL {u : List Char} (h : '[' ∉ u) :
    hasPattern u = false := by
  induction u with
  | nil => rfl
  | cons c rest ih =>
      have hc : c ≠ '[' := fun hc => h (hc ▸ List.mem_cons_self c rest)
      rw [hasPattern_cons_ne hc]
      exact ih (fun hc2 => h (List.mem_cons_of_mem c hc2))

theorem hasPattern_strip_left {u : List Char} (p : List Char) (hp : '[' ∉ p)
    (h : hasPattern (p ++ u) = true) : hasPattern u = true := by
  induction p with
  | nil => exact h
  | cons c cs ih =>
      have hc : c ≠ '[' := fun hc => hp (hc ▸ List.mem_cons_self c cs)
      rw [show (c :: cs) ++ u = c :: (cs ++ u) from rfl, hasPattern_cons_ne hc] at h
      exact ih (fun hc2 => hp (List.mem_cons_of_mem c hc2)) h

/-! ### Unfolding equations for the scanner -/

theorem runTok_cons_bracketL (rest : List Char) :
    runTok ('[' :: rest) none = runTok rest (some ['[']) := by
  simp [runTok]

theorem runTok_cons_none_ne {c : Char} (h : c ≠ '[') (rest : List Char) :
    runTok (c :: rest) none = (false, [c]) :: runTok rest none := by
  simp [runTok, h]

theorem runTok_close_big {pend : List Char} (h : 2 ≤ pend.length) (rest : List Char) :
    runTok (']' :: rest) (some pend) = (true, pend ++ [']']) :: runTok rest none := by
  simp [runTok, h]

theorem runTok_close_small {pend : List Char} (h : ¬ 2 ≤ pend.length) (rest : List Char) :
    runTok (']' :: rest) (some pend)
      = (false, ['[']) :: (false, [']']) :: runTok rest none := by
  simp [runTok, h]

theorem runTok_push {c : Char} (h : c ≠ ']') (rest pend : List Char) :
    runTok (c :: rest) (some pend) = runTok rest (some (pend ++ [c])) := by
  simp [runTok, h]

theorem singles_any (u : List Char) :
    (u.map (fun c => ((false : Bool), [c]))).any (fun t => t.1) = false := by
  rw [List.any_eq_false]
  intro t ht
  obtain ⟨c, _, rfl⟩ := List.mem_map.mp ht
  simp

/-! ### The scanner finds a match exactly when a bracket pattern exists -/

theorem runTok_any_eq : ∀ l : List Char,
    ((runTok l none).any (fun t => t.1) = hasPattern l) ∧
    (∀ inner : List Char, ']' ∉ inner →
      (runTok l (some ('[' :: inner))).any (fun t => t.1)
        = hasPattern ('[' :: (inner ++ l))) := by
  intro l
  induction l with
  | nil =>
      constructor
      · rfl
      · intro inner hinner
        show (((('[' :: inner)).map (fun c => ((false : Bool), [c]))).any (fun t => t.1))
          = hasPattern ('[' :: (inner ++ []))
        rw [singles_any, List.append_nil, hasPattern_cons_bracketL]
        have h1 : closes inner = false := by
          cases hcl : closes inner
          · rfl
          · exact absurd ((closes_iff inner).mp hcl).1 hinner
        rw [h1, hasPattern_eq_false_of_no_bracketR hinner]
        rfl
  | cons c rest ih =>
      constructor
      · by_cases hc : c = '['
        · subst hc
          rw [runTok_cons_bracketL, hasPattern_cons_bracketL]
          rw [ih.2 [] (List.not_mem_nil ']')]
          rw [show ([] : List Char) ++ rest = rest from rfl]
          rw [hasPattern_cons_bracketL]
        · rw [runTok_cons_none_ne hc, List.any_cons, hasPattern_cons_ne hc, ih.1]
          simp
      · intro inner hinner
        by_cases hc : c = ']'
        · subst hc
          cases inner with
          | nil =>
              rw [runTok_close_small (by decide)]
              rw [List.any_cons, List.any_cons, ih.1]
              rw [show ([] : List Char) ++ ']' :: rest = ']' :: rest from rfl]
              rw [hasPattern_cons_bracketL, closes_cons_bracketR,
                hasPattern_cons_ne (by decide : ']' ≠ '[')]
              simp
          | cons i is =>
              rw [runTok_close_big (by simp)]
              rw [List.any_cons]
              have hclose : closes ((i :: is) ++ ']' :: rest) = true := by
                rw [closes_iff]
                refine ⟨List.mem_append_right _ (List.mem_cons_self _ _), ?_⟩
                have hi : i ≠ ']' := fun h => hinner (h ▸ List.mem_cons_self i is)
                simp [hi]
              rw [hasPattern_cons_bracketL, hclose]
              simp
        · rw [runTok_push hc, List.cons_append]
          have h2 : ']' ∉ inner ++ [c] := by
            intro hmem
            rcases List.mem_append.mp hmem with h3 | h3
            · exact hinner h3
            · exact hc (List.mem_singleton.mp h3).symm
          rw [ih.2 (inner ++ [c]) h2, List.append_assoc]
          rfl

theorem matchesOf_eq_nil_iff (l : List Char) :
    matchesOf l = [] ↔ hasPattern l = false := by
  unfold matchesOf bracketTokens
  rw [List.map_eq_nil_iff, List.filter_eq_nil_iff, ← (runTok_any_eq l).1,
    List.any_eq_false]

/-! ### No new match survives removal -/

/-- The non-match characters produced by the scanner from a given state. -/
def remTok (l : List Char) (st : Option (List Char)) : List Char :=
  (((runTok l st).filter (fun t => !t.1)).map (fun t => t.2)).flatten

theorem removedOf_eq_remTok (l : List Char) : removedOf l = remTok l none := rfl

theorem singles_flatten (u : List Char) :
    (((u.map (fun c => ((false : Bool), [c]))).filter (fun t => !t.1)).map
      (fun t => t.2)).flatten = u := by
  induction u with
  | nil => rfl
  | cons c cs ih =>
      simp only [List.map_cons, List.filter_cons]
      simp [ih]

theorem remTok_nil_some (pend : List Char) : remTok [] (some pend) = pend := by
  unfold remTok
  rw [show runTok [] (some pend) = pend.map (fun c => ((false : Bool), [c])) from rfl]
  exact singles_flatten pend

theorem remTok_cons_bracketL (rest : List Char) :
    remTok ('[' :: rest) none = remTok rest (some ['[']) := by
  unfold remTok
  rw [runTok_cons_bracketL]

theorem remTok_cons_none_ne {c : Char} (h : c ≠ '[') (rest : List Char) :
    remTok (c :: rest) none = c :: remTok rest none := by
  unfold remTok
  rw [runTok_cons_none_ne h]
  simp [List.filter_cons]

theorem remTok_close_big {pend : List Char} (h : 2 ≤ pend.length) (rest : List Char) :
    remTok (']' :: rest) (some pend) = remTok rest none := by
  unfold remTok
  rw [runTok_close_big h]
  simp [List.filter_cons]

theorem remTok_close_small {pend : List Char} (h : ¬ 2 ≤ pend.length) (rest : List Char) :
    remTok (']' :: rest) (some pend) = '[' :: ']' :: remTok rest none := by
  unfold remTok
  rw [runTok_close_small h]
  simp [List.filter_cons]

theorem remTok_push {c : Char} (h : c ≠ ']') (rest pend : List Char) :
    remTok (c :: rest) (some pend) = remTok rest (some (pend ++ [c])) := by
  unfold remTok
  rw [runTok_push h]

theorem hasPattern_remTok_false : ∀ l : List Char,
    (hasPattern (remTok l none) = false) ∧
    (∀ inner, ']' ∉ inner → hasPattern (remTok l (some ('[' :: inner))) = false) := by
  intro l
  induction l with
  | nil =>
      constructor
      · rfl
      · intro inner hinner
        rw [remTok_nil_some, hasPattern_cons_bracketL]
        have h1 : closes inner = false := by
          cases hcl : closes inner
          · rfl
          · exact absurd ((closes_iff inner).mp hcl).1 hinner
        rw [h1, hasPattern_eq_false_of_no_bracketR hinner]
        rfl
  | cons c rest ih =>
      constructor
      · by_cases hc : c = '['
        · subst hc
          rw [remTok_cons_bracketL]
          exact ih.2 [] (List.not_mem_nil _)
        · rw [remTok_cons_none_ne hc, hasPattern_cons_ne hc]
          exact ih.1
      · intro inner hinner
        by_cases hc : c = ']'
        · subst hc
          cases inner with
          | nil =>
              rw [remTok_close_small (by decide), hasPattern_cons_bracketL,
                closes_cons_bracketR, hasPattern_cons_ne (by decide : ']' ≠ '['), ih.1]
              rfl
          | cons i is =>
              rw [remTok_close_big (by simp)]
              exact ih.1
        · rw [remTok_push hc, List.cons_append]
          apply ih.2
          intro hmem
          rcases List.mem_append.mp hmem with h3 | h3
          · exact hinner h3
          · exact hc (List.mem_singleton.mp h3).symm

theorem hasPattern_removedOf (l : List Char) : hasPattern (removedOf l) = false := by
  rw [removedOf_eq_remTok]
  exact (hasPattern_remTok_false l).1

/-! ### Newline collapsing preserves bracket structure -/

theorem collapseRun_cons_nl (rest : List Char) (n : Nat) :
    collapseRun ('\n' :: rest) n = collapseRun rest (n + 1) := by
  simp [collapseRun]

theorem collapseRun_cons_ne {c : Char} (h : c ≠ '\n') (rest : List Char) (n : Nat) :
    collapseRun (c :: rest) n
      = List.replicate (min n 2) '\n' ++ c :: collapseRun rest 0 := by
  simp [collapseRun, h]

theorem mem_collapseRun : ∀ (l : List Char) (n : Nat) (x : Char),
    x ∈ collapseRun l n → x = '\n' ∨ x ∈ l := by
  intro l
  induction l with
  | nil =>
      intro n x hx
      exact Or.inl (List.eq_of_mem_replicate hx)
  | cons c rest ih =>
      intro n x hx
      by_cases hc : c = '\n'
      · subst hc
        rw [collapseRun_cons_nl] at hx
        rcases ih (n + 1) x hx with h | h
        · exact Or.inl h
        · exact Or.inr (List.mem_cons_of_mem _ h)
      · rw [collapseRun_cons_ne hc] at hx
        rcases List.mem_append.mp hx with h | h
        · exact Or.inl (List.eq_of_mem_replicate h)
        · rcases List.mem_cons.mp h with h2 | h2
          · exact Or.inr (h2 ▸ List.mem_cons_self c rest)
          · rcases ih 0 x h2 with h3 | h3
            · exact Or.inl h3
            · exact Or.inr (List.mem_cons_of_mem _ h3)

theorem mem_collapseRun_rev : ∀ (l : List Char) (n : Nat) (x : Char),
    x ∈ l → x = '\n' ∨ x ∈ collapseRun l n := by
  intro l
  induction l with
  | nil =>
      intro n x hx
      exact absurd hx (List.not_mem_nil x)
  | cons c rest ih =>
      intro n x hx
      by_cases hc : c = '\n'
      · subst hc
        rw [collapseRun_cons_nl]
        rcases List.mem_cons.mp hx with h | h
        · exact Or.inl h
        · exact ih (n + 1) x h
      · rw [collapseRun_cons_ne hc]
        rcases List.mem_cons.mp hx with h | h
        · subst h
          exact Or.inr (List.mem_append_right _ (List.mem_cons_self x _))
        · rcases ih 0 x h with h2 | h2
          · exact Or.inl h2
          · exact Or.inr (List.mem_append_right _ (List.mem_cons_of_mem c h2))

theorem head?_collapseRun_pos : ∀ (l : List Char) (n : Nat), 1 ≤ n →
    (collapseRun l n).head? = some '\n' := by
  intro l
  induction l with
  | nil =>
      intro n hn
      have hmin : 1 ≤ min n 2 := Nat.le_min.mpr ⟨hn, by decide⟩
      obtain ⟨k, hk⟩ := Nat.exists_eq_add_of_le hmin
      rw [show collapseRun [] n = List.replicate (min n 2) '\n' from rfl, hk,
        Nat.add_comm, List.replicate_succ]
      rfl
  | cons c rest ih =>
      intro n hn
      by_cases hc : c = '\n'
      · subst hc
        rw [collapseRun_cons_nl]
        exact ih (n + 1) (Nat.le_succ_of_le hn)
      · rw [collapseRun_cons_ne hc]
        have hmin : 1 ≤ min n 2 := Nat.le_min.mpr ⟨hn, by decide⟩
        obtain ⟨k, hk⟩ := Nat.exists_eq_add_of_le hmin
        rw [hk, Nat.add_comm, List.replicate_succ]
        rfl

theorem head?_collapseRun_zero : ∀ l : List Char,
    (collapseRun l 0).head? = l.head? := by
  intro l
  cases l with
  | nil => rfl
  | cons c rest =>
      by_cases hc : c = '\n'
      · subst hc
        rw [collapseRun_cons_nl]
        rw [head?_collapseRun_pos rest 1 (le_refl 1)]
        rfl
      · rw [collapseRun_cons_ne hc]
        rfl

theorem hasPattern_collapseRun : ∀ (l : List Char) (n : Nat),
    hasPattern (collapseRun l n) = true → hasPattern l = true := by
  intro l
  induction l with
  | nil =>
      intro n h
      have h2 : '[' ∉ List.replicate (min n 2) '\n' := by
        intro hm
        exact absurd (List.eq_of_mem_replicate hm) (by decide)
      exact absurd h (by
        rw [show collapseRun [] n = List.replicate (min n 2) '\n' from rfl,
          hasPattern_eq_false_of_no_bracketL h2]
        decide)
  | cons c rest ih =>
      intro n h
      by_cases hc : c = '\n'
      · subst hc
        rw [collapseRun_cons_nl] at h
        exact hasPattern_cons_of '\n' (ih (n + 1) h)
      · rw [collapseRun_cons_ne hc] at h
        have hrep : '[' ∉ List.replicate (min n 2) '\n' := by
          intro hm
          exact absurd (List.eq_of_mem_replicate hm) (by decide)
        have h2 : hasPattern (c :: collapseRun rest 0) = true :=
          hasPattern_strip_left _ hrep h
        by_cases hcb : c = '['
        · subst hcb
          rw [hasPattern_cons_bracketL] at h2
          rcases Bool.or_eq_true_iff.mp h2 with h3 | h3
          · obtain ⟨hmem, hhead⟩ := (closes_iff _).mp h3
            have hmem2 : ']' ∈ rest := by
              rcases mem_collapseRun rest 0 ']' hmem with h4 | h4
              · exact absurd h4 (by decide)
              · exact h4
            have hhead2 : rest.head? ≠ some ']' := by
              rw [← head?_collapseRun_zero rest]
              exact hhead
            rw [hasPattern_cons_bracketL, Bool.or_eq_true_iff]
            exact Or.inl ((closes_iff rest).mpr ⟨hmem2, hhead2⟩)
          · exact hasPattern_cons_of '[' (ih 0 h3)
        · rw [hasPattern_cons_ne hcb] at h2
          exact hasPattern_cons_of c (ih 0 h2)

theorem allws_collapseRun {l : List Char} (n : Nat)
    (h : ∀ c ∈ l, isJsSpace c = true) :
    ∀ c ∈ collapseRun l n, isJsSpace c = true := by
  intro c hc
  rcases mem_collapseRun l n c hc with h2 | h2
  · rw [h2]
    exact isJsSpace_newline
  · exact h c h2

theorem allws_of_collapseRun {l : List Char} (n : Nat)
    (h : ∀ c ∈ collapseRun l n, isJsSpace c = true) :
    ∀ c ∈ l, isJsSpace c = true := by
  intro c hc
  rcases mem_collapseRun_rev l n c hc with h2 | h2
  · rw [h2]
    exact isJsSpace_newline
  · exact h c h2

/-! ### Trim decomposition and idempotence -/

theorem jsTrim_decomp (l : List Char) :
    l = l.takeWhile isJsSpace ++ jsTrim l
      ++ ((l.dropWhile isJsSpace).reverse.takeWhile isJsSpace).reverse := by
  have h1 : (l.dropWhile isJsSpace).reverse
      = (l.dropWhile isJsSpace).reverse.takeWhile isJsSpace
        ++ (l.dropWhile isJsSpace).reverse.dropWhile isJsSpace :=
    (List.takeWhile_append_dropWhile _ _).symm
  have h2 := congrArg List.reverse h1
  rw [List.reverse_reverse, List.reverse_append] at h2
  conv_lhs => rw [← List.takeWhile_append_dropWhile isJsSpace l]
  rw [List.append_assoc]
  congr 1

theorem dropWhile_idem (p : Char → Bool) (u : List Char) :
    (u.dropWhile p).dropWhile p = u.dropWhile p := by
  induction u with
  | nil => rfl
  | cons c cs ih =>
      rw [List.dropWhile_cons]
      by_cases h : p c = true
      · rw [if_pos h]
        exact ih
      · rw [if_neg h, List.dropWhile_cons, if_neg h]

theorem dropWhile_head_false (p : Char → Bool) :
    ∀ (u : List Char) (c : Char) (x : List Char), u.dropWhile p = c :: x →
      p c = false := by
  intro u
  induction u with
  | nil => exact fun c x h => List.noConfusion h
  | cons d ds ih =>
      intro c x h
      rw [List.dropWhile_cons] at h
      by_cases hd : p d = true
      · rw [if_pos hd] at h
        exact ih c x h
      · rw [if_neg hd] at h
        have hcd : d = c := (List.cons.injEq _ _ _ _ ▸ h).1
        rw [← hcd]
        exact Bool.eq_false_iff.mpr hd

theorem jsTrim_idem (l : List Char) : jsTrim (jsTrim l) = jsTrim l := by
  have hstep1 : (jsTrim l).dropWhile isJsSpace = jsTrim l := by
    cases hT : jsTrim l with
    | nil => rfl
    | cons c x =>
        have hsuf : (l.dropWhile isJsSpace).reverse.dropWhile isJsSpace
            <:+ (l.dropWhile isJsSpace).reverse := List.dropWhile_suffix _
        have hpre : jsTrim l <+: l.dropWhile isJsSpace := by
          have h3 := List.reverse_prefix.mpr hsuf
          rw [List.reverse_reverse] at h3
          exact h3
        obtain ⟨t, ht⟩ := hpre
        have hd : l.dropWhile isJsSpace = c :: (x ++ t) := by
          rw [← ht, hT]
          rfl
        have hc : isJsSpace c = false := dropWhile_head_false _ _ _ _ hd
        rw [List.dropWhile_cons, if_neg (by simp [hc])]
  have hstep2 : (jsTrim l).reverse.dropWhile isJsSpace = (jsTrim l).reverse := by
    have hrev : (jsTrim l).reverse
        = (l.dropWhile isJsSpace).reverse.dropWhile isJsSpace :=
      List.reverse_reverse _
    rw [hrev]
    exact dropWhile_idem _ _
  show (((jsTrim l).dropWhile isJsSpace).reverse.dropWhile isJsSpace).reverse = jsTrim l
  rw [hstep1, hstep2, List.reverse_reverse]

theorem hasPattern_jsTrim {l : List Char} (h : hasPattern (jsTrim l) = true) :
    hasPattern l = true := by
  conv_lhs => rw [jsTrim_decomp l]
  rw [List.append_assoc]
  exact hasPattern_append_left _ (hasPattern_append_right _ h)

theorem ws_not_bracketL {u : List Char} (h : ∀ c ∈ u, isJsSpace c = true) :
    '[' ∉ u := by
  intro hm
  have h2 := h '[' hm
  rw [isJsSpace_bracketL] at h2
  exact Bool.noConfusion h2

theorem ws_not_bracketR {u : List Char} (h : ∀ c ∈ u, isJsSpace c = true) :
    ']' ∉ u := by
  intro hm
  have h2 := h ']' hm
  rw [isJsSpace_bracketR] at h2
  exact Bool.noConfusion h2

/-! ### The scanner on whitespace-padded input -/

theorem runTok_singles_prefix {p : List Char} (hp : '[' ∉ p) :
    ∀ t, runTok (p ++ t) none
      = p.map (fun c => ((false : Bool), [c])) ++ runTok t none := by
  induction p with
  | nil => exact fun t => rfl
  | cons c p2 ih =>
      intro t
      have hc : c ≠ '[' := fun h => hp (h ▸ List.mem_cons_self c p2)
      rw [List.cons_append, runTok_cons_none_ne hc, List.map_cons, List.cons_append,
        ih (fun hm => hp (List.mem_cons_of_mem c hm)) t]

theorem runTok_singles_only {v : List Char} (hv : '[' ∉ v) :
    runTok v none = v.map (fun c => ((false : Bool), [c])) := by
  have h := runTok_singles_prefix hv []
  rw [List.append_nil, show runTok ([] : List Char) none = [] from rfl,
    List.append_nil] at h
  exact h

theorem runTok_pend_noclose :
    ∀ (v : List Char), ']' ∉ v → ∀ pend,
      runTok v (some pend) = (pend ++ v).map (fun c => ((false : Bool), [c])) := by
  intro v
  induction v with
  | nil =>
      intro _ pend
      rw [List.append_nil]
      rfl
  | cons c v2 ih =>
      intro hv pend
      have hc : c ≠ ']' := fun h => hv (h ▸ List.mem_cons_self c v2)
      rw [runTok_push hc, ih (fun hm => hv (List.mem_cons_of_mem c hm)) (pend ++ [c]),
        List.append_assoc]
      rfl

theorem runTok_append_clean (v : List Char) (hv1 : ']' ∉ v) (hv2 : '[' ∉ v) :
    ∀ t : List Char,
      (runTok (t ++ v) none
        = runTok t none ++ v.map (fun c => ((false : Bool), [c]))) ∧
      (∀ inner, ']' ∉ inner →
        runTok (t ++ v) (some ('[' :: inner))
          = runTok t (some ('[' :: inner))
            ++ v.map (fun c => ((false : Bool), [c]))) := by
  intro t
  induction t with
  | nil =>
      constructor
      · show runTok v none = runTok [] none ++ _
        rw [show runTok ([] : List Char) none = [] from rfl, List.nil_append]
        exact runTok_singles_only hv2
      · intro inner hinner
        show runTok v (some ('[' :: inner)) = _
        rw [runTok_pend_noclose v hv1 ('[' :: inner),
          show runTok ([] : List Char) (some ('[' :: inner))
            = ('[' :: inner).map (fun c => ((false : Bool), [c])) from rfl,
          List.map_append]
  | cons c t2 ih =>
      constructor
      · by_cases hc : c = '['
        · subst hc
          rw [List.cons_append, runTok_cons_bracketL, runTok_cons_bracketL]
          exact ih.2 [] (List.not_mem_nil _)
        · rw [List.cons_append, runTok_cons_none_ne hc, runTok_cons_none_ne hc,
            List.cons_append, ih.1]
      · intro inner hinner
        by_cases hc : c = ']'
        · subst hc
          cases inner with
          | nil =>
              rw [List.cons_append, runTok_close_small (by decide),
                runTok_close_small (by decide), ih.1, List.cons_append,
                List.cons_append]
          | cons i is =>
              rw [List.cons_append, runTok_close_big (by simp),
                runTok_close_big (by simp), ih.1]
              rfl
        · have h2 : ']' ∉ inner ++ [c] := by
            intro hm
            rcases List.mem_append.mp hm with h3 | h3
            · exact hinner h3
            · exact hc (List.mem_singleton.mp h3).symm
          rw [List.cons_append, runTok_push hc, runTok_push hc, List.cons_append,
            ih.2 (inner ++ [c]) h2]

theorem singles_filter_true (u : List Char) :
    (u.map (fun c => ((false : Bool), [c]))).filter (fun t => t.1) = [] := by
  rw [List.filter_eq_nil_iff]
  intro t ht
  obtain ⟨c, _, rfl⟩ := List.mem_map.mp ht
  simp

/-- Trimming does not change the matches; the removed text only loses the
whitespace padding. -/
theorem trim_tokens (l : List Char) :
    matchesOf l = matchesOf (jsTrim l) ∧
    ∃ a b, (∀ c ∈ a, isJsSpace c = true) ∧ (∀ c ∈ b, isJsSpace c = true) ∧
      removedOf l = a ++ removedOf (jsTrim l) ++ b := by
  have ha : ∀ c ∈ l.takeWhile isJsSpace, isJsSpace c = true :=
    fun c hc => List.mem_takeWhile_imp hc
  have hb : ∀ c ∈ ((l.dropWhile isJsSpace).reverse.takeWhile isJsSpace).reverse,
      isJsSpace c = true :=
    fun c hc => List.mem_takeWhile_imp (List.mem_reverse.mp hc)
  have htok : runTok l none
      = (l.takeWhile isJsSpace).map (fun c => ((false : Bool), [c]))
        ++ (runTok (jsTrim l) none
          ++ (((l.dropWhile isJsSpace).reverse.takeWhile isJsSpace).reverse).map
            (fun c => ((false : Bool), [c]))) := by
    conv_lhs => rw [jsTrim_decomp l]
    rw [List.append_assoc,
      runTok_singles_prefix (ws_not_bracketL ha) _,
      (runTok_append_clean _ (ws_not_bracketR hb) (ws_not_bracketL hb) (jsTrim l)).1]
  constructor
  · unfold matchesOf bracketTokens
    rw [htok, List.filter_append, List.filter_append, singles_filter_true,
      singles_filter_true, List.nil_append, List.append_nil]
  · refine ⟨l.takeWhile isJsSpace,
      ((l.dropWhile isJsSpace).reverse.takeWhile isJsSpace).reverse, ha, hb, ?_⟩
    unfold removedOf bracketTokens
    rw [htok, List.filter_append, List.filter_append, List.map_append,
      List.map_append, List.flatten_append, List.flatten_append]
    have hkeep : ∀ u : List Char,
        ((((u.map (fun c => ((false : Bool), [c]))).filter (fun t => !t.1)).map
          (fun t => t.2)).flatten) = u := singles_flatten
    rw [hkeep, hkeep, ← List.append_assoc]

/-! ### Case analysis of `parseAnswer` -/

theorem parseAnswer_of_no_match (s : String) (h : matchesOf s.data = []) :
    parseAnswer s = ⟨⟨jsTrim s.data⟩, []⟩ := by
  simp only [parseAnswer]
  rw [h]
  simp [collectRefs]

theorem parseAnswer_of_match_empty (s : String) (hm : matchesOf s.data ≠ [])
    (hc : jsTrim (collapseNewlines (removedOf s.data)) = []) :
    parseAnswer s = ⟨⟨jsTrim s.data⟩, collectRefs (matchesOf s.data)⟩ := by
  simp only [parseAnswer]
  rw [if_pos (fun h0 => hm (List.length_eq_zero.mp h0)), hc]
  rw [if_neg (by simp)]

theorem parseAnswer_of_match_nonempty (s : String) (hm : matchesOf s.data ≠ [])
    (hc : jsTrim (collapseNewlines (removedOf s.data)) ≠ []) :
    parseAnswer s
      = ⟨⟨jsTrim (collapseNewlines (removedOf s.data))⟩,
          collectRefs (matchesOf s.data)⟩ := by
  simp only [parseAnswer]
  rw [if_pos (fun h0 => hm (List.length_eq_zero.mp h0))]
  rw [if_pos (List.length_pos.mpr hc)]

/-! ### Claim C7: re-parsing the parsed content -/

/-- C7 counterexample: for the input `"[abc]"` removing the single match
leaves the empty string, the content falls back to the trimmed original
`"[abc]"`, and re-parsing that content yields references `["abc"]`, not the
empty list the claim asserts. -/
theorem parseAnswer_reparse_counterexample :
    ¬ ((parseAnswer (parseAnswer "[abc]").content).content
          = (parseAnswer "[abc]").content ∧
        (parseAnswer (parseAnswer "[abc]").content).references = []) := by
  decide

/-- C7 (amended): applying the parser to the content it produced yields the
same content; the reference list of the re-parse is empty unless the first
parse took the empty-removal fallback (its content still holds a bracket
match), in which case the re-parse returns the first parse's references. -/
theorem parseAnswer_reparse (s : String) :
    (parseAnswer (parseAnswer s).content).content = (parseAnswer s).content ∧
    (parseAnswer (parseAnswer s).content).references
      = (if hasPattern (parseAnswer s).content.data = true
          then (parseAnswer s).references
          else []) := by
  by_cases hm : matchesOf s.data = []
  · have hres := parseAnswer_of_no_match s hm
    have hp : hasPattern s.data = false := (matchesOf_eq_nil_iff _).mp hm
    have hpT : hasPattern (jsTrim s.data) = false := by
      cases hPT : hasPattern (jsTrim s.data)
      · rfl
      · exact absurd hp (by
          rw [hasPattern_jsTrim hPT]
          exact fun h2 => Bool.noConfusion h2)
    have hmT : matchesOf (String.mk (jsTrim s.data)).data = [] :=
      (matchesOf_eq_nil_iff _).mpr hpT
    rw [hres]
    refine ⟨?_, ?_⟩
    · show (parseAnswer (String.mk (jsTrim s.data))).content = String.mk (jsTrim s.data)
      rw [parseAnswer_of_no_match _ hmT]
      show String.mk (jsTrim (jsTrim s.data)) = String.mk (jsTrim s.data)
      rw [jsTrim_idem]
    · show (parseAnswer (String.mk (jsTrim s.data))).references
        = if hasPattern (String.mk (jsTrim s.data)).data = true
            then ([] : List String) else []
      rw [parseAnswer_of_no_match _ hmT]
      simp
  · by_cases hc : jsTrim (collapseNewlines (removedOf s.data)) = []
    · have hres := parseAnswer_of_match_empty s hm hc
      obtain ⟨hmeq, a, b, ha, hb, hrem⟩ := trim_tokens s.data
      have hmT : matchesOf (String.mk (jsTrim s.data)).data ≠ [] := by
        show matchesOf (jsTrim s.data) ≠ []
        rw [← hmeq]
        exact hm
      have hws_rem : ∀ c ∈ removedOf s.data, isJsSpace c = true := by
        have h2 := (jsTrim_eq_nil_iff _).mp hc
        exact allws_of_collapseRun 0 h2
      have hws_remT : ∀ c ∈ removedOf (jsTrim s.data), isJsSpace c = true := by
        intro c hcm
        apply hws_rem
        rw [hrem]
        exact List.mem_append_left _ (List.mem_append_right _ hcm)
      have hcT : jsTrim (collapseNewlines
          (removedOf (String.mk (jsTrim s.data)).data)) = [] := by
        show jsTrim (collapseNewlines (removedOf (jsTrim s.data))) = []
        rw [jsTrim_eq_nil_iff]
        exact allws_collapseRun 0 hws_remT
      have hpT : hasPattern (jsTrim s.data) = true := by
        cases hx : hasPattern (jsTrim s.data)
        · exact absurd ((matchesOf_eq_nil_iff (jsTrim s.data)).mpr hx) hmT
        · rfl
      rw [hres]
      refine ⟨?_, ?_⟩
      · show (parseAnswer (String.mk (jsTrim s.data))).content
          = String.mk (jsTrim s.data)
        rw [parseAnswer_of_match_empty _ hmT hcT]
        show String.mk (jsTrim (jsTrim s.data)) = String.mk (jsTrim s.data)
        rw [jsTrim_idem]
      · show (parseAnswer (String.mk (jsTrim s.data))).references
          = if hasPattern (String.mk (jsTrim s.data)).data = true
              then collectRefs (matchesOf s.data) else []
        rw [parseAnswer_of_match_empty _ hmT hcT]
        rw [show (String.mk (jsTrim s.data)).data = jsTrim s.data from rfl, hpT,
          if_pos rfl]
        show collectRefs (matchesOf (jsTrim s.data)) = collectRefs (matchesOf s.data)
        rw [← hmeq]
    · have hres := parseAnswer_of_match_nonempty s hm hc
      have hpC : hasPattern (jsTrim (collapseNewlines (removedOf s.data))) = false := by
        cases hx : hasPattern (jsTrim (collapseNewlines (removedOf s.data)))
        · rfl
        · have h1 := hasPattern_jsTrim hx
          have h2 := hasPattern_collapseRun (removedOf s.data) 0 h1
          rw [hasPattern_removedOf] at h2
          exact h2.symm
      have hmC : matchesOf
          (String.mk (jsTrim (collapseNewlines (removedOf s.data)))).data = [] :=
        (matchesOf_eq_nil_iff _).mpr hpC
      rw [hres]
      refine ⟨?_, ?_⟩
      · show (parseAnswer (String.mk (jsTrim (collapseNewlines (removedOf s.data))))).content
          = String.mk (jsTrim (collapseNewlines (removedOf s.data)))
        rw [parseAnswer_of_no_match _ hmC]
        show String.mk (jsTrim (jsTrim (collapseNewlines (removedOf s.data))))
          = String.mk (jsTrim (collapseNewlines (removedOf s.data)))
        rw [jsTrim_idem]
      · show (parseAnswer (String.mk (jsTrim (collapseNewlines
            (removedOf s.data))))).references
          = if hasPattern (String.mk (jsTrim (collapseNewlines
              (removedOf s.data)))).data = true
              then collectRefs (matchesOf s.data) else []
        rw [parseAnswer_of_no_match _ hmC]
        rw [show (String.mk (jsTrim (collapseNewlines (removedOf s.data)))).data
          = jsTrim (collapseNewlines (removedOf s.data)) from rfl, hpC]
        simp
